import Mathlib

/-!
Verification development for the QOTA document-processing service
(`qota-ocr-service/app.py`): a shallow embedding in Lean 4 of the text
normalizer, the hybrid PDF text extractor, the due-date / monetary-total /
category extractors and the address matcher, together with theorems about
the specification's claims.

Python strings are modelled as `String` / `List Char`; Python `float`
values reached by the monetary pipeline are modelled by `PyFloat`: either
a finite value carrying the exact decimal reading of its literal (`Dec`, a
`num / 10 ^ exp` pair), or an infinity, produced — as CPython's `float()`
produces it — when the literal's magnitude reaches the double-overflow
threshold `2 ^ 1024 - 2 ^ 970`.  The service only ever parses decimal
literals, so `nan` is unreachable; for finite values the nearest double's
rounding error is invisible to every property proved below (each concrete
evaluation uses a short literal whose `str` round trip reproduces it, and
the serializer shape facts do not depend on the last digit).
Fallible I/O (PyMuPDF, pdf2image / Tesseract) is modelled by
`Except`-valued environment fields.
-/

namespace QotaOcr

/-- Python whitespace (the set used by `str.split()`, `str.strip()` and by
`\s` in `re` patterns on `str` in Python 3), by code point. -/
def pyIsSpace (c : Char) : Bool :=
  let n := c.toNat
  (9 ≤ n && n ≤ 13) || n = 32 || (28 ≤ n && n ≤ 31) ||
  n = 0x85 || n = 0xa0 || n = 0x1680 ||
  (0x2000 ≤ n && n ≤ 0x200a) ||
  n = 0x2028 || n = 0x2029 || n = 0x202f || n = 0x205f || n = 0x3000

/-- Python `str.strip()` (no arguments): remove leading and trailing
whitespace. -/
def pyStrip (cs : List Char) : List Char :=
  ((cs.dropWhile pyIsSpace).reverse.dropWhile pyIsSpace).reverse

/-- Worker for `splitWS`: `acc` holds the reversed word in progress. -/
def splitWSAux : List Char → List Char → List (List Char)
  | [], acc => if acc = [] then [] else [acc.reverse]
  | c :: cs, acc =>
    if pyIsSpace c then
      if acc = [] then splitWSAux cs [] else acc.reverse :: splitWSAux cs []
    else splitWSAux cs (c :: acc)

/-- Python `str.split()` (no arguments): maximal runs of non-whitespace. -/
def splitWS (cs : List Char) : List (List Char) := splitWSAux cs []

/-- Python `' '.join(words)` at the character-list level. -/
def joinSp : List (List Char) → List Char
  | [] => []
  | [w] => w
  | w :: ws => w ++ ' ' :: joinSp ws

/-- Python `text.split(sep)` for a one-character separator (empty pieces are
kept, and the empty string splits to `[[]]`, as in Python). -/
def splitOnChar (sep : Char) : List Char → List (List Char)
  | [] => [[]]
  | c :: cs =>
    if c = sep then [] :: splitOnChar sep cs
    else
      match splitOnChar sep cs with
      | l :: ls => (c :: l) :: ls
      | [] => [[c]]

/-- Is `n` a (character-list) prefix of `h`? -/
def hasPre : List Char → List Char → Bool
  | [], _ => true
  | _ :: _, [] => false
  | a :: as, b :: bs => a == b && hasPre as bs

/-- Python's `needle in haystack` for strings: contiguous substring test. -/
def subB : List Char → List Char → Bool
  | n, [] => n.isEmpty
  | n, h :: t => hasPre n (h :: t) || subB n t

/-- Python 3 `str.lower()`, modelled character-wise on the ASCII range (the
service's keyword matching only ever distinguishes ASCII case; one-to-many
Unicode lowerings such as U+0130 never reach `.lower()` in
`normalize_text`, because the NFD pass decomposes them first). -/
def pyLowerChar (c : Char) : Char :=
  if 'A' ≤ c ∧ c ≤ 'Z' then Char.ofNat (c.toNat + 32) else c

/-- `unicodedata.category(c) == 'Mn'`, restricted to the combining
diacritical marks block U+0300–U+036F — the only `Mn` characters produced
by the NFD table below. -/
def isMnChar (c : Char) : Bool := 0x300 ≤ c.toNat && c.toNat ≤ 0x36F

/-- Canonical (NFD) decompositions used by `unicodedata.normalize('NFD', ·)`,
tabulated for the Latin letters with accents that the service's Portuguese
documents contain; characters outside the table decompose to themselves. -/
def nfdTable : List (Char × List Char) :=
  [ ('À', ['A', '̀']), ('Á', ['A', '́']),
    ('Â', ['A', '̂']), ('Ã', ['A', '̃']),
    ('Ä', ['A', '̈']),
    ('Ç', ['C', '̧']),
    ('È', ['E', '̀']), ('É', ['E', '́']),
    ('Ê', ['E', '̂']), ('Ë', ['E', '̈']),
    ('Ì', ['I', '̀']), ('Í', ['I', '́']),
    ('Î', ['I', '̂']), ('Ï', ['I', '̈']),
    ('İ', ['I', '̇']),
    ('Ñ', ['N', '̃']),
    ('Ò', ['O', '̀']), ('Ó', ['O', '́']),
    ('Ô', ['O', '̂']), ('Õ', ['O', '̃']),
    ('Ö', ['O', '̈']),
    ('Ù', ['U', '̀']), ('Ú', ['U', '́']),
    ('Û', ['U', '̂']), ('Ü', ['U', '̈']),
    ('Ý', ['Y', '́']),
    ('à', ['a', '̀']), ('á', ['a', '́']),
    ('â', ['a', '̂']), ('ã', ['a', '̃']),
    ('ä', ['a', '̈']),
    ('ç', ['c', '̧']),
    ('è', ['e', '̀']), ('é', ['e', '́']),
    ('ê', ['e', '̂']), ('ë', ['e', '̈']),
    ('ì', ['i', '̀']), ('í', ['i', '́']),
    ('î', ['i', '̂']), ('ï', ['i', '̈']),
    ('ñ', ['n', '̃']),
    ('ò', ['o', '̀']), ('ó', ['o', '́']),
    ('ô', ['o', '̂']), ('õ', ['o', '̃']),
    ('ö', ['o', '̈']),
    ('ù', ['u', '̀']), ('ú', ['u', '́']),
    ('û', ['u', '̂']), ('ü', ['u', '̈']),
    ('ý', ['y', '́']), ('ÿ', ['y', '̈']) ]

/-- Per-character NFD decomposition (see `nfdTable`). -/
def nfdChar (c : Char) : List Char :=
  match nfdTable.find? (fun p => p.1 == c) with
  | some p => p.2
  | none => [c]

/-- `normalize_text` from `app.py`: empty check, NFD decomposition with
combining-mark (`Mn`) removal, lowercasing, and whitespace collapsing via
`' '.join(text.split())`. -/
def normalize_text (s : String) : String :=
  if s = "" then ""
  else
    String.mk (joinSp (splitWS
      (((s.data.flatMap nfdChar).filter (fun c => !isMnChar c)).map pyLowerChar)))

/-! ### Hybrid PDF text extractor -/

/-- `OCR_TEXT_LENGTH_THRESHOLD` from `app.py`. -/
def OCR_TEXT_LENGTH_THRESHOLD : Nat := 150

/-- Environment for `extract_text_from_pdf`: the PyMuPDF native text layer
(per-page texts, or the exception it raised) and the
pdf2image/Tesseract OCR pipeline (per-page OCR strings, or the exception
it raised). -/
structure PdfEnv where
  nativePages : Except String (List String)
  ocrPages : Except String (List String)

/-- The `full_text` accumulated by the first (native) strategy: the pages'
text concatenated in document order, or `""` when PyMuPDF raised (the
`except` branch sets `full_text = ""`). -/
def nativeFullText (env : PdfEnv) : String :=
  match env.nativePages with
  | .ok ps => String.join ps
  | .error _ => ""

/-- `extract_text_from_pdf` from `app.py`.  The returned `Bool` records
whether the OCR fallback was invoked.  Exceptions of both external
pipelines are modelled by the `Except` fields of `PdfEnv`; the Lean
function is total, mirroring the fact that the Python function catches
every exception of both strategies and never propagates one. -/
def extract_text_from_pdf (env : PdfEnv) : String × Bool :=
  let full := nativeFullText env
  if (pyStrip full.data).length < OCR_TEXT_LENGTH_THRESHOLD then
    match env.ocrPages with
    | .ok ts => (normalize_text (String.intercalate "\n" ts), true)
    | .error _ => ("", true)
  else (normalize_text full, false)

/-! ### Regex building blocks

The service uses a handful of fixed `re` patterns.  Each is embedded as a
direct matcher on character lists.  In every pattern below the greedy
quantifiers (`\s*`, `\s+`, `[...]+`, `\d{2,4}`) are followed either by
nothing or by a character class disjoint from the quantified class, so
maximal (greedy) consumption coincides with Python's backtracking
semantics; alternations are tried in pattern order with the whole suffix,
as `re` does. -/

/-- Match a literal character sequence, returning the rest of the input. -/
def litM : List Char → List Char → Option (List Char)
  | [], cs => some cs
  | _ :: _, [] => none
  | a :: as, b :: bs => if a = b then litM as bs else none

/-- `\s+` (greedy): at least one whitespace character, then all following
whitespace. -/
def sp1 : List Char → Option (List Char)
  | [] => none
  | c :: cs => if pyIsSpace c then some (cs.dropWhile pyIsSpace) else none

/-- The character class `[\d.,]`. -/
def isNumChar (c : Char) : Bool := c.isDigit || c = '.' || c = ','

/-! ### Monetary-total extractor -/

/-- Keyword alternative `total\s+a\s+pagar`. -/
def kwTotalAPagar (cs : List Char) : Option (List Char) :=
  (litM "total".data cs).bind fun r1 =>
  (sp1 r1).bind fun r2 =>
  (litM "a".data r2).bind fun r3 =>
  (sp1 r3).bind fun r4 =>
  litM "pagar".data r4

/-- Keyword alternative `valor\s+total`. -/
def kwValorTotal (cs : List Char) : Option (List Char) :=
  (litM "valor".data cs).bind fun r1 =>
  (sp1 r1).bind fun r2 =>
  litM "total".data r2

/-- Keyword alternative `total\s+da\s+conta`. -/
def kwTotalDaConta (cs : List Char) : Option (List Char) :=
  (litM "total".data cs).bind fun r1 =>
  (sp1 r1).bind fun r2 =>
  (litM "da".data r2).bind fun r3 =>
  (sp1 r3).bind fun r4 =>
  litM "conta".data r4

/-- The suffix `\s*r?\$\s*([\d.,]+)` of the priority-1 money pattern,
returning the capture group.  (`r?` followed by the mandatory `\$`:
consuming an `r` when present is equivalent to backtracking, since a
failed `\$` after `r` also fails without it.) -/
def s1Suffix (cs : List Char) : Option (List Char) :=
  let r1 := cs.dropWhile pyIsSpace
  let r2 := match r1 with
    | 'r' :: t => t
    | _ => r1
  match r2 with
  | '$' :: r3 =>
    let g := (r3.dropWhile pyIsSpace).takeWhile isNumChar
    if g.isEmpty then none else some g
  | _ => none

/-- Full match of
`(?:total\s+a\s+pagar|valor\s+total|total\s+da\s+conta)\s*r?\$\s*([\d.,]+)`
anchored at the current position, alternatives in pattern order. -/
def s1MatchAt (cs : List Char) : Option (List Char) :=
  ((kwTotalAPagar cs).bind s1Suffix) <|>
  ((kwValorTotal cs).bind s1Suffix) <|>
  ((kwTotalDaConta cs).bind s1Suffix)

/-- `re.search` of the priority-1 money pattern: leftmost match's group. -/
def s1Search : List Char → Option (List Char)
  | [] => none
  | c :: cs =>
    match s1MatchAt (c :: cs) with
    | some g => some g
    | none => s1Search cs

/-- One match of `r\$\s*([\d.,]{2,})` anchored at the current position:
the capture group and the remaining input after the match. -/
def moneyMatchAt : List Char → Option (List Char × List Char)
  | c :: d :: rest =>
    if c = 'r' ∧ d = '$' then
      let r2 := rest.dropWhile pyIsSpace
      let g := r2.takeWhile isNumChar
      if 2 ≤ g.length then some (g, r2.drop g.length) else none
    else none
  | _ => none

/-- Worker for `s2FindAll`; the fuel dominates the input length, and every
step consumes at least one character, so it never runs out. -/
def s2FindAllAux : Nat → List Char → List (List Char)
  | 0, _ => []
  | fuel + 1, cs =>
    match moneyMatchAt cs with
    | some (g, rest) => g :: s2FindAllAux fuel rest
    | none =>
      match cs with
      | [] => []
      | _ :: t => s2FindAllAux fuel t

/-- `re.findall(r'r\$\s*([\d.,]{2,})', text)`: non-overlapping matches,
left to right, each search resuming after the previous match. -/
def s2FindAll (cs : List Char) : List (List Char) := s2FindAllAux cs.length cs

/-- Digit-part worker for the Python `float()` grammar: consumes digits,
allowing single underscores between digits; returns the value, the digit
count, and the rest (an `_` not followed by a digit is left in the rest,
making the overall parse fail, as in Python). -/
def pdpLoop : Nat → Nat → List Char → Nat × Nat × List Char
  | v, n, [] => (v, n, [])
  | v, n, c :: cs =>
    if c.isDigit then pdpLoop (10 * v + (c.toNat - 48)) (n + 1) cs
    else if c = '_' then
      match cs with
      | d :: cs2 =>
        if d.isDigit then pdpLoop (10 * v + (d.toNat - 48)) (n + 1) cs2
        else (v, n, c :: cs)
      | [] => (v, n, [c])
    else (v, n, c :: cs)

/-- A digit part (`digitpart` in the `float()` grammar): at least one
leading digit. -/
def pdp (cs : List Char) : Option (Nat × Nat × List Char) :=
  match cs with
  | c :: _ => if c.isDigit then some (pdpLoop 0 0 cs) else none
  | [] => none

/-- The mantissa of a `float()` literal: `digits [. [digits]] | . digits`,
returned as `(numerator, decimalPlaces, rest)`. -/
def parseMantissa (cs : List Char) : Option (Nat × Nat × List Char) :=
  match cs with
  | '.' :: t =>
    match pdp t with
    | some (fv, fn, rest) => some (fv, fn, rest)
    | none => none
  | _ =>
    match pdp cs with
    | some (iv, _, rest) =>
      match rest with
      | '.' :: t2 =>
        match pdp t2 with
        | some (fv, fn, rest2) => some (iv * 10 ^ fn + fv, fn, rest2)
        | none => some (iv, 0, t2)
      | _ => some (iv, 0, rest)
    | none => none

/-- An exact decimal value `num / 10 ^ exp`: the mantissa-and-exponent
reading of a decimal literal, before conversion into the float domain. -/
structure Dec where
  num : Int
  exp : Nat
deriving DecidableEq

/-- Value comparison `a < b` on exact decimals (cross-multiplied). -/
def fltB (a b : Dec) : Bool :=
  decide (a.num * ((10 ^ b.exp : Nat) : Int) < b.num * ((10 ^ a.exp : Nat) : Int))

/-- A Python `float` as reached by the monetary pipeline: either a finite
value carrying the exact decimal reading of its literal, or an infinity
produced by overflow in `float()`.  The service only ever parses decimal
literals, so `nan` is unreachable and not modelled; for finite values the
nearest double's rounding error is invisible to every property proved
below. -/
inductive PyFloat
  | fin (d : Dec)
  | inf
  | ninf
deriving DecidableEq

/-- The smallest decimal magnitude that CPython's `float()` (C `strtod`,
round to nearest, ties to even) turns into an infinity, written out as a
numeral so that evaluation stays cheap: the midpoint `2 ^ 1024 - 2 ^ 970`
between the largest double `2 ^ 1024 - 2 ^ 971` and `2 ^ 1024` ties to the
even significand, which is out of range, so every magnitude at or above it
overflows (`float("9" * 400)` is `inf`, silently).  The theorem
`overflowBound_eq` below checks the numeral against the formula. -/
def overflowBound : Nat := 179769313486231580793728971405303415079934132710037826936173778980444968292764750946649017977587207096330286416692887910946555547851940402630657488671505820681908902000708383676273854845817711531764475730270069855571366959622842914819860834936475292719074168444365510704342711559699508093042880177904174497792

/-- Send a parsed exact decimal into the float domain: magnitudes at or
above `overflowBound` overflow to the same-signed infinity, everything
else stays finite with its exact decimal value.  (Gradual underflow of
tiny magnitudes to zero or a denormal is not modelled: it affects neither
the shape of any serialization nor any concrete evaluation below.) -/
def mkPyFloat (d : Dec) : PyFloat :=
  if overflowBound * 10 ^ d.exp ≤ d.num.natAbs then
    (if d.num < 0 then .ninf else .inf)
  else .fin d

/-- Python `<` on floats as the monetary pipeline compares them (`max` and
the `0 < v < 1_000_000` filter): `inf` above every finite value, `-inf`
below, equal infinities not less than each other. -/
def pfltB : PyFloat → PyFloat → Bool
  | .fin a, .fin b => fltB a b
  | .fin _, .inf => true
  | .fin _, .ninf => false
  | .inf, _ => false
  | .ninf, .ninf => false
  | .ninf, _ => true

/-- The optional sign of the `float()` grammar: `(isNegative, rest)`. -/
def pySign (cs : List Char) : Bool × List Char :=
  match cs with
  | c :: t => if c = '-' then (true, t) else if c = '+' then (false, t) else (false, c :: t)
  | [] => (false, [])

/-- Exponent suffix of a `float()` literal (after the `e`/`E`), applied to
the mantissa's exact decimal. -/
def expPart (v : Dec) (cs : List Char) : Option Dec :=
  let p := pySign cs
  match pdp p.2 with
  | some (e, _, rest) =>
    if rest = [] then
      some (if p.1 then ⟨v.num, v.exp + e⟩ else ⟨v.num * ((10 ^ e : Nat) : Int), v.exp⟩)
    else none
  | none => none

/-- Python `float(s)` on the decimal-literal grammar (optional surrounding
whitespace, sign, mantissa, exponent; underscores between digits), reading
the literal exactly and then overflowing to an infinity at
`overflowBound`, as CPython's `strtod`-based conversion does.  The
`inf`/`nan` names and non-ASCII decimal digits are not modelled; no
candidate string produced by the service's patterns contains them. -/
def pyFloatParse (cs0 : List Char) : Option PyFloat :=
  let p := pySign (pyStrip cs0)
  match parseMantissa p.2 with
  | none => none
  | some (num, scale, rest) =>
    let signed : Dec := if p.1 then ⟨-(num : Int), scale⟩ else ⟨(num : Int), scale⟩
    match rest with
    | [] => some (mkPyFloat signed)
    | c :: t => if c = 'e' ∨ c = 'E' then (expPart signed t).map mkPyFloat else none

/-- Python `str.replace('r$', '')`: remove every (non-overlapping,
left-to-right) occurrence. -/
def removeRS : List Char → List Char
  | [] => []
  | [c] => [c]
  | c :: d :: t =>
    if c = 'r' ∧ d = '$' then removeRS t else c :: removeRS (d :: t)

/-- The cleaning pipeline of `_clean_value_str_to_float` before `float()`:
`value_str.lower().replace('r$', '').strip()`, then `.replace('.', '')`
and `.replace(',', '.')`. -/
def cleanedChars (cs : List Char) : List Char :=
  ((pyStrip (removeRS (cs.map pyLowerChar))).filter (fun c => c != '.')).map
    (fun c => if c = ',' then '.' else c)

/-- `_clean_value_str_to_float` from `app.py`: clean, then `float()`; a
`ValueError` (unparseable string) yields `0.0`. -/
def _clean_value_str_to_float (s : String) : PyFloat :=
  (pyFloatParse (cleanedChars s.data)).getD (.fin ⟨0, 0⟩)

/-- Decimal digit as a character (only ever applied to values `< 10`). -/
def digitChar (n : Nat) : Char := Char.ofNat (48 + n % 10)

/-- Decimal digits of a natural number (worker with fuel; `n + 1` steps
always suffice since the argument shrinks by a factor of ten). -/
def natDigitsAux : Nat → Nat → List Char
  | 0, _ => []
  | fuel + 1, n => if n < 10 then [digitChar n] else natDigitsAux fuel (n / 10) ++ [digitChar (n % 10)]

/-- Decimal digits of a natural number, most significant first. -/
def natDigits (n : Nat) : List Char := natDigitsAux (n + 1) n

/-- Decimal digits of the fraction `r / p` (with `p = 10 ^ exp` and
`r < p`), stopping at zero remainder (no trailing zeros).  At most `exp`
digits exist, so `exp` is enough fuel. -/
def fracDigitsAux : Nat → Nat → Nat → List Char
  | 0, _, _ => []
  | fuel + 1, r, p =>
    if r = 0 then []
    else digitChar (r * 10 / p) :: fracDigitsAux fuel (r * 10 % p) p

/-- Python `str()` of a float: `"inf"` / `"-inf"` for the two infinities
(no digits and no dot, as CPython prints them); for a finite value, minus
sign, integer digits, `.`, fraction digits with trailing zeros stripped
(at least one digit, so an integral value prints as `n.0`).  The finite
branch models CPython's shortest round-trip repr at the moderate
magnitudes the service's finite values take; for finite magnitudes at or
above `1e16` CPython switches to an exponent notation built from digits,
`e`, `+`, `-` and `.` — in particular also comma-free, which is the only
fact any theorem below uses about the shape of `str()` output — and no
concrete evaluation below leaves the moderate regime. -/
def pyStrFloat : PyFloat → String
  | .inf => "inf"
  | .ninf => "-inf"
  | .fin q =>
    let a := q.num.natAbs
    let p := 10 ^ q.exp
    let ds := fracDigitsAux q.exp (a % p) p
    String.mk ((if q.num < 0 then ['-'] else []) ++ natDigits (a / p) ++
      '.' :: (if ds.isEmpty then ['0'] else ds))

/-- Two decimal digits, zero-padded. -/
def pad2 (k : Nat) : List Char := [digitChar (k / 10 % 10), digitChar (k % 10)]

/-- Python `f"{x:.2f}"`: `"inf"` / `"-inf"` for the two infinities; for a
finite value, round the exact decimal to two places (`⌊x·100 + 1/2⌋` via
floor division) and print with exactly two fraction digits (fixed format
never uses exponent notation).  CPython rounds the nearest double, which
agrees on every value with at most two decimal places — no rounding
happens at all, and every concrete evaluation below is of this kind —
while for longer fractions the double's representation error can flip the
last digit near a decimal tie (`f"{2.675:.2f}"` is `"2.67"`); the shape
facts proved below (dotted two-digit fraction, comma-absence) hold either
way. -/
def formatFixed2 : PyFloat → String
  | .inf => "inf"
  | .ninf => "-inf"
  | .fin q =>
    let p : Int := ((10 ^ q.exp : Nat) : Int)
    let n := Int.fdiv (2 * q.num * 100 + p) (2 * p)
    let a := n.natAbs
    String.mk ((if n < 0 then ['-'] else []) ++ natDigits (a / 100) ++
      '.' :: pad2 (a % 100))

/-- Python `max` on a list of floats (first maximum on ties; the `[]`
default is never used, since the call sites guard for nonemptiness as the
code does). -/
def maxListP : List PyFloat → PyFloat
  | [] => .fin ⟨0, 0⟩
  | x :: xs => xs.foldl (fun cur q => if pfltB cur q then q else cur) x

/-- Does the string end in `.` followed by exactly two digits, with no
other `.`?  (The shape claimed for the extractor's serialized decimals.) -/
def twoFracB (s : String) : Bool :=
  match s.data.reverse with
  | d2 :: d1 :: p :: rest =>
    d2.isDigit && d1.isDigit && p == '.' && rest.all (fun c => c != '.')
  | _ => false

/-- `_extract_total_value` from `app.py`.  `nlp` models the optional spaCy
pipeline (priority 3): `none` when the model is unavailable, otherwise a
map from the text to its entities as (label, entity text) pairs.  The
code's `if matches: ...; if possible_values:` pair collapses to one test,
since the two lists have equal length. -/
def _extract_total_value (nlp : Option (String → List (String × String)))
    (text : String) : Option String :=
  match s1Search text.data with
  | some g => some (pyStrFloat (_clean_value_str_to_float (String.mk g)))
  | none =>
    let ms := s2FindAll text.data
    if ms.isEmpty then
      match nlp with
      | none => none
      | some ents =>
        let money := (ents text).filter
          (fun e => e.1 == "MONEY" && e.2.data.any Char.isDigit)
        let vals := money.map (fun e => _clean_value_str_to_float e.2)
        if vals.isEmpty then none
        else
          let valid := vals.filter
            (fun v => pfltB (.fin ⟨0, 0⟩) v && pfltB v (.fin ⟨1000000, 0⟩))
          if valid.isEmpty then none
          else some (formatFixed2 (maxListP valid))
    else
      some (formatFixed2 (maxListP (ms.map (fun g => _clean_value_str_to_float (String.mk g)))))

/-- Modelled from the spec (for claim C4's hypothesis): a phrase meaning
"total due"/"total amount"/"total of bill", then optional whitespace, then
an *optional* currency marker, then a numeric token — i.e. the marker as a
whole is optional, unlike the code's `r?\$`.  Anchored at the current
position. -/
def specS1SuffixAt (cs : List Char) : Bool :=
  let r1 := cs.dropWhile pyIsSpace
  let viaMarker :=
    match (match r1 with | 'r' :: t => t | _ => r1) with
    | '$' :: r3 => !((r3.dropWhile pyIsSpace).takeWhile isNumChar).isEmpty
    | _ => false
  viaMarker || !(r1.takeWhile isNumChar).isEmpty

/-- Modelled from the spec (for claim C4's hypothesis): anchored match of
keyword phrase + optional marker + numeric token. -/
def specS1At (cs : List Char) : Bool :=
  ((kwTotalAPagar cs).map specS1SuffixAt).getD false ||
  ((kwValorTotal cs).map specS1SuffixAt).getD false ||
  ((kwTotalDaConta cs).map specS1SuffixAt).getD false

/-- Modelled from the spec (for claim C4's hypothesis): does the
marker-optional pattern match anywhere in the text? -/
def specS1Found : List Char → Bool
  | [] => false
  | c :: cs => specS1At (c :: cs) || specS1Found cs

/-! ### Due-date extractor -/

/-- Keyword alternative `vencimento`. -/
def kwVencimento (cs : List Char) : Option (List Char) := litM "vencimento".data cs

/-- Keyword alternative `vence\s*em`. -/
def kwVenceEm (cs : List Char) : Option (List Char) :=
  (litM "vence".data cs).bind fun r1 => litM "em".data (r1.dropWhile pyIsSpace)

/-- Keyword alternative `pagar\s+ate`. -/
def kwPagarAte (cs : List Char) : Option (List Char) :=
  (litM "pagar".data cs).bind fun r1 =>
  (sp1 r1).bind fun r2 =>
  litM "ate".data r2

/-- The suffix `\s*[:\-]?\s*(\d{2}/\d{2}/\d{4})` of the priority-1 due-date
pattern, returning the capture group (the strict ten-character date). -/
def dd1Suffix (cs : List Char) : Option (List Char) :=
  let r1 := cs.dropWhile pyIsSpace
  let r2 := match r1 with
    | ':' :: t => t
    | '-' :: t => t
    | _ => r1
  match r2.dropWhile pyIsSpace with
  | a :: b :: '/' :: c :: d :: '/' :: e :: f :: g :: h :: _ =>
    if a.isDigit && b.isDigit && c.isDigit && d.isDigit &&
       e.isDigit && f.isDigit && g.isDigit && h.isDigit then
      some [a, b, '/', c, d, '/', e, f, g, h]
    else none
  | _ => none

/-- Anchored match of
`(?:vencimento|vence\s*em|pagar\s+ate)\s*[:\-]?\s*(\d{2}/\d{2}/\d{4})`,
alternatives in pattern order. -/
def dd1MatchAt (cs : List Char) : Option (List Char) :=
  ((kwVencimento cs).bind dd1Suffix) <|>
  ((kwVenceEm cs).bind dd1Suffix) <|>
  ((kwPagarAte cs).bind dd1Suffix)

/-- `re.search` of the priority-1 due-date pattern: leftmost match's group. -/
def dd1Search : List Char → Option (List Char)
  | [] => none
  | c :: cs =>
    match dd1MatchAt (c :: cs) with
    | some g => some g
    | none => dd1Search cs

/-- The year part `\d{2,4}` (greedy, two to four digits). -/
def takeYear (ys : List Char) : Option (List Char × List Char) :=
  match ys with
  | a :: b :: rest =>
    if a.isDigit && b.isDigit then
      match rest with
      | c :: rest2 =>
        if c.isDigit then
          match rest2 with
          | d :: rest3 =>
            if d.isDigit then some ([a, b, c, d], rest3) else some ([a, b, c], rest2)
          | [] => some ([a, b, c], [])
        else some ([a, b], rest)
      | [] => some ([a, b], [])
    else none
  | _ => none

/-- Anchored match of `(\d{2}/\d{2}/\d{2,4})`: the token and the rest of
the input after it. -/
def dateMatchAt : List Char → Option (List Char × List Char)
  | d1 :: d2 :: '/' :: m1 :: m2 :: '/' :: ys =>
    if d1.isDigit && d2.isDigit && m1.isDigit && m2.isDigit then
      match takeYear ys with
      | some (yd, rest) => some (d1 :: d2 :: '/' :: m1 :: m2 :: '/' :: yd, rest)
      | none => none
    else none
  | _ => none

/-- `re.search(r'(\d{2}/\d{2}/\d{2,4})', line)`: leftmost date token. -/
def dateSearch : List Char → Option (List Char)
  | [] => none
  | c :: cs =>
    match dateMatchAt (c :: cs) with
    | some (t, _) => some t
    | none => dateSearch cs

/-- Worker for `dateFindAll`; as with `s2FindAllAux`, the fuel dominates
the input length and every step consumes at least one character. -/
def dateFindAllAux : Nat → List Char → List (List Char)
  | 0, _ => []
  | fuel + 1, cs =>
    match dateMatchAt cs with
    | some (t, rest) => t :: dateFindAllAux fuel rest
    | none =>
      match cs with
      | [] => []
      | _ :: t => dateFindAllAux fuel t

/-- `re.findall(r'(\d{2}/\d{2}/\d{2,4})', text)`. -/
def dateFindAll (cs : List Char) : List (List Char) := dateFindAllAux cs.length cs

/-- The same-line keyword list `['vencimento', 'vence em', 'pagar ate']`. -/
def dueKeywords : List (List Char) :=
  ["vencimento".data, "vence em".data, "pagar ate".data]

/-- Strategy 2 of `_extract_due_date`: scan `text.split('\n')`; on any line
containing a keyword, return the line's first date token (a keyword line
without a date token just moves on to the next line). -/
def dueStrat2 (cs : List Char) : Option (List Char) :=
  (splitOnChar '\n' cs).findSome? fun line =>
    if dueKeywords.any (fun k => subB k line) then dateSearch line else none

/-- A `datetime.datetime` at midnight, as constructed by strategy 3. -/
structure PyDate where
  y : Nat
  m : Nat
  d : Nat
deriving DecidableEq

/-- Gregorian (proleptic) leap years, as in Python's `calendar`/`datetime`. -/
def isLeap (y : Nat) : Bool := y % 4 == 0 && (y % 100 != 0 || y % 400 == 0)

/-- Days in a month, as validated by the `datetime` constructor. -/
def daysInMonth (y m : Nat) : Nat :=
  if m = 2 then (if isLeap y then 29 else 28)
  else if m = 4 ∨ m = 6 ∨ m = 9 ∨ m = 11 then 30
  else 31

/-- `datetime(year, month, day)`: `ValueError` (modelled as `none`) outside
`MINYEAR..MAXYEAR` or for an invalid month or day. -/
def mkDatetime (y m d : Nat) : Option PyDate :=
  if 1 ≤ y ∧ y ≤ 9999 ∧ 1 ≤ m ∧ m ≤ 12 ∧ 1 ≤ d ∧ d ≤ daysInMonth y m then
    some ⟨y, m, d⟩
  else none

/-- `datetime` comparison `a <= b` (lexicographic on year, month, day). -/
def dleB (a b : PyDate) : Bool :=
  if a.y ≠ b.y then decide (a.y < b.y)
  else if a.m ≠ b.m then decide (a.m < b.m)
  else decide (a.d ≤ b.d)

/-- `datetime` comparison `a < b`. -/
def dltB (a b : PyDate) : Bool :=
  if a.y ≠ b.y then decide (a.y < b.y)
  else if a.m ≠ b.m then decide (a.m < b.m)
  else decide (a.d < b.d)

/-- `int()` on a digit string (every token reaching it consists of ASCII
digits, by construction of the date regex). -/
def natOfDigits (cs : List Char) : Nat :=
  cs.foldl (fun a c => 10 * a + (c.toNat - 48)) 0

/-- Parsing of one found token in strategy 3: `day, month, year_str =
date_str.split('/')`, two-digit years prefixed with `"20"`, then the
`datetime` constructor (a `ValueError` discards the token). -/
def parseDateToken (tok : List Char) : Option PyDate :=
  match splitOnChar '/' tok with
  | [ds, ms, ys] =>
    let yr := if ys.length = 2 then 2000 + natOfDigits ys else natOfDigits ys
    mkDatetime yr (natOfDigits ms) (natOfDigits ds)
  | _ => none

/-- Python `min(candidates, key=lambda x: x[0])`: first minimum on ties. -/
def minByDate (l : List (PyDate × List Char)) : Option (PyDate × List Char) :=
  match l with
  | [] => none
  | p :: ps => some (ps.foldl (fun cur q => if dltB q.1 cur.1 then q else cur) p)

/-- The `future_dates` list of strategy 3: every found token that parses
and is on or after `today` (midnight-truncated), with its parsed date. -/
def dueSurvivors (today : PyDate) (cs : List Char) : List (PyDate × List Char) :=
  (dateFindAll cs).filterMap fun tok =>
    match parseDateToken tok with
    | some dt => if dleB today dt then some (dt, tok) else none
    | none => none

/-- Strategy 3 of `_extract_due_date`: the original string form of the
chronologically closest surviving date, if any. -/
def dueStrat3 (today : PyDate) (cs : List Char) : Option (List Char) :=
  (minByDate (dueSurvivors today cs)).map Prod.snd

/-- `_extract_due_date` from `app.py`; `today` is `datetime.now()`
truncated to midnight (the only form in which the code compares it). -/
def _extract_due_date (today : PyDate) (text : String) : Option String :=
  match dd1Search text.data with
  | some t => some (String.mk t)
  | none =>
    match dueStrat2 text.data with
    | some t => some (String.mk t)
    | none => (dueStrat3 today text.data).map String.mk

/-! ### Category classifier -/

/-- The `CATEGORIES` mapping from `_categorize_invoice`, in source order. -/
def CATEGORIES : List (String × List String) :=
  [("Internet", ["internet", "telecom", "fibra", "banda larga", "vivo",
                 "claro", "tim", "oi", "algar", "brisanet"]),
   ("Energia", ["energia", "eletrica", "eletrobras", "neoenergia", "enel",
                "cpfl", "equatorial", "cemig", "light"]),
   ("Água", ["agua", "saneamento", "sabesp", "copasa", "sanepar", "casan",
             "aegea", "igua", "corsan", "embasa"]),
   ("Condomínio", ["condominio"]),
   ("Imposto", ["iptu", "imposto predial", "tributo"])]

/-- `_categorize_invoice` from `app.py`: first category (in insertion
order) with any keyword occurring as a substring; default `"Outros"`. -/
def _categorize_invoice (text : String) : String :=
  match CATEGORIES.find? (fun p => p.2.any (fun k => subB k.data text.data)) with
  | some p => p.1
  | none => "Outros"

/-! ### Address matcher -/

/-- `\w` (word character); exact over the ASCII range, which is all the
normalized, accent-stripped document text contains. -/
def isw (c : Char) : Bool := c.isAlphanum || c = '_'

/-- Word-character test with "no character" counting as non-word. -/
def iswO : Option Char → Bool
  | none => false
  | some c => isw c

/-- `\b`: word boundary between an adjacent pair of positions. -/
def boundaryB (x y : Option Char) : Bool := iswO x != iswO y

/-- After the first street word: match `(\W* word)*` then the final `\b`,
with full backtracking over the `\W*` gaps (the fuel dominates the
remaining input plus word count, so it never runs out). -/
def wSeqF : Nat → List (List Char) → Option Char → List Char → Bool
  | 0, _, _, _ => false
  | _ + 1, [], lastC, cs => boundaryB lastC cs.head?
  | fuel + 1, w :: ws, lastC, cs =>
    (match litM w cs with
     | some rest => wSeqF fuel ws w.getLast? rest
     | none => false) ||
    (match cs with
     | c :: t => !isw c && wSeqF fuel (w :: ws) lastC t
     | [] => false)

/-- Anchored match of the street pattern
`\b w₁ (\W* wᵢ)* \b` at the current position (`prev` is the preceding
character, for the leading `\b`). -/
def streetMatchAt (ws : List (List Char)) (prev : Option Char) (cs : List Char) : Bool :=
  match ws with
  | [] => false
  | w :: rest =>
    boundaryB prev cs.head? &&
    (match litM w cs with
     | some r => wSeqF (r.length + rest.length + 1) rest w.getLast? r
     | none => false)

/-- Position scan for `re.search` of the street pattern. -/
def streetScan (ws : List (List Char)) : Option Char → List Char → Bool
  | prev, [] => streetMatchAt ws prev []
  | prev, c :: t => streetMatchAt ws prev (c :: t) || streetScan ws (some c) t

/-- `re.search(r'\b' + r'\W*'.join(map(re.escape, words)) + r'\b', text)`
as a Boolean (the route only tests truthiness). -/
def streetSearch (ws : List (List Char)) (cs : List Char) : Bool :=
  streetScan ws none cs

/-- The character preceding the scan position: the last of the consumed
characters, or the initial predecessor when none were consumed. -/
def lastD (prev : Option Char) (pre : List Char) : Option Char :=
  match pre.getLast? with
  | some ch => some ch
  | none => prev

/-- The validation outcomes of the address route. -/
inductive MatchOutcome
  | MatchedByPostalCode
  | MatchedByStreet
  | NoMatch
deriving DecidableEq

/-- `re.sub(r'\D', '', s)`: keep only (ASCII) digits. -/
def onlyDigits (cs : List Char) : List Char := cs.filter Char.isDigit

/-- `normalize_text(address).split(',')[0].strip()` from the route. -/
def logradouroOf (addr : String) : List Char :=
  pyStrip ((splitOnChar ',' (normalize_text addr).data).headD [])

/-- `logradouro.split()`: the street words fed to the pattern. -/
def streetWords (addr : String) : List (List Char) := splitWS (logradouroOf addr)

/-- The address-validation decision of `process_document_route` (lines
375–385 of `app.py`): postal-code digit containment first, then the
street-pattern search, else no match. -/
def matchAddress (extractedText addr cep : String) : MatchOutcome :=
  let cepC := onlyDigits cep.data
  if !cepC.isEmpty && subB cepC (onlyDigits extractedText.data) then
    .MatchedByPostalCode
  else if !(logradouroOf addr).isEmpty &&
          streetSearch (streetWords addr) extractedText.data then
    .MatchedByStreet
  else .NoMatch

/-- All characters of a `\W*` gap are non-word. -/
def GapOk (g : List Char) : Prop := ∀ c ∈ g, isw c = false

/-- Declarative semantics of the pattern tail after the first word:
alternating non-word gaps and literal words, ending at a word boundary. -/
def TailProp : List (List Char) → Option Char → List Char → Prop
  | [], lastC, cs => boundaryB lastC cs.head? = true
  | w :: ws, _, cs => ∃ g rest, cs = g ++ w ++ rest ∧ GapOk g ∧ TailProp ws w.getLast? rest

/-- Declarative semantics of the whole street pattern: somewhere in the
text, a word boundary, the words in order separated only by non-word
characters (or nothing), and a final word boundary. -/
def StreetMatchProp (ws : List (List Char)) (cs : List Char) : Prop :=
  match ws with
  | [] => False
  | w :: rest =>
    ∃ pre tl, cs = pre ++ tl ∧ boundaryB pre.getLast? tl.head? = true ∧
      ∃ r, tl = w ++ r ∧ TailProp rest w.getLast? r

/-! ## Theorems -/

/-- C1: For every PDF whose native text layer, concatenated across all
pages in document order, has a trimmed length of at least 150 characters,
`extract_text_from_pdf` does not invoke optical recognition and returns
exactly the normalization (`normalize_text`) of that concatenated native
text. -/
theorem c1_native_text_skips_ocr (env : PdfEnv) (ps : List String)
    (hnat : env.nativePages = Except.ok ps)
    (hlen : 150 ≤ (pyStrip (String.join ps).data).length) :
    extract_text_from_pdf env = (normalize_text (String.join ps), false) := by
  have hfull : nativeFullText env = String.join ps := by
    unfold nativeFullText
    rw [hnat]
  simp only [extract_text_from_pdf, hfull, OCR_TEXT_LENGTH_THRESHOLD]
  rw [if_neg (by omega)]

set_option maxRecDepth 4000 in
/-- Witness for C1 at a concrete 150-character single-page document. -/
theorem c1_witness :
    extract_text_from_pdf
        ⟨Except.ok [String.mk (List.replicate 150 'a')], Except.error "io error"⟩
      = (normalize_text (String.join [String.mk (List.replicate 150 'a')]), false) :=
  c1_native_text_skips_ocr _ _ rfl (by decide)

/-- C8: `extract_text_from_pdf` never propagates an exception (it is total
on its `Except`-modelled environment): an error during native text-layer
extraction is swallowed and treated as zero-length output, triggering the
optical-recognition fallback, and an error during the OCR fallback makes
the function return the empty string. -/
theorem c8_fails_closed (env : PdfEnv) :
    (∀ e, env.nativePages = Except.error e → (extract_text_from_pdf env).2 = true) ∧
    (∀ e, env.ocrPages = Except.error e → (extract_text_from_pdf env).2 = true →
      (extract_text_from_pdf env).1 = "") := by
  constructor
  · intro e he
    have hfull : nativeFullText env = "" := by
      unfold nativeFullText
      rw [he]
    simp only [extract_text_from_pdf, hfull]
    rw [if_pos (by decide)]
    cases env.ocrPages <;> rfl
  · intro e he hsnd
    by_cases hc :
        (pyStrip (nativeFullText env).data).length < OCR_TEXT_LENGTH_THRESHOLD
    · simp only [extract_text_from_pdf, if_pos hc] at *
      rw [he]
    · simp only [extract_text_from_pdf, if_neg hc] at hsnd
      exact absurd hsnd (by decide)

/-- `hasPre` decides `List.IsPrefix`. -/
theorem hasPre_iff (n h : List Char) : hasPre n h = true ↔ n <+: h := by
  induction n generalizing h with
  | nil => simp [hasPre]
  | cons a as ih =>
    cases h with
    | nil => simp [hasPre]
    | cons b bs =>
      simp [hasPre, Bool.and_eq_true, beq_iff_eq, ih, List.cons_prefix_cons]

/-- `subB` (Python's `in` on strings) decides `List.IsInfix`. -/
theorem subB_iff (n h : List Char) : subB n h = true ↔ n <:+: h := by
  induction h with
  | nil => simp [subB, List.isEmpty_iff]
  | cons c t ih =>
    simp [subB, Bool.or_eq_true, hasPre_iff, ih, List.infix_cons_iff]

/-- `List.find?` returns the element at the first index whose predicate
holds, when all earlier indices fail it. -/
theorem find?_first_idx {α : Type} (pB : α → Bool) (l : List α) (i : Nat) (x : α)
    (hx : l[i]? = some x) (hpx : pB x = true)
    (hlt : ∀ j, j < i → ∀ y, l[j]? = some y → pB y = false) :
    l.find? pB = some x := by
  induction l generalizing i with
  | nil => simp at hx
  | cons a t ih =>
    cases i with
    | zero =>
      simp only [List.getElem?_cons_zero, Option.some.injEq] at hx
      subst hx
      exact List.find?_cons_of_pos _ hpx
    | succ k =>
      have ha : pB a = false := hlt 0 (Nat.succ_pos k) a (by simp)
      rw [List.find?_cons_of_neg _ (by simp [ha])]
      exact ih k (by simpa using hx)
        (fun j hj y hy => hlt (j + 1) (by omega) y (by simpa using hy))

/-- C7: The category classifier returns the first category, in the fixed
taxonomy order Internet, Energia, Água, Condomínio, Imposto, whose keyword
set has any member occurring as a substring of the input text (a keyword
embedded inside a longer token counts); if no category's keyword occurs as
a substring, it returns the default label `"Outros"`. -/
theorem c7_category_first_match :
    CATEGORIES.map Prod.fst = ["Internet", "Energia", "Água", "Condomínio", "Imposto"] ∧
    (∀ text : String,
      ((∀ p ∈ CATEGORIES, ∀ kw ∈ p.2, ¬ kw.data <:+: text.data) →
        _categorize_invoice text = "Outros") ∧
      (∀ (i : Nat) (p : String × List String), CATEGORIES[i]? = some p →
        (∃ kw ∈ p.2, kw.data <:+: text.data) →
        (∀ j, j < i → ∀ q : String × List String, CATEGORIES[j]? = some q →
          ∀ kw ∈ q.2, ¬ kw.data <:+: text.data) →
        _categorize_invoice text = p.1)) := by
  refine ⟨rfl, fun text => ⟨?_, ?_⟩⟩
  · intro hnone
    unfold _categorize_invoice
    rw [List.find?_eq_none.mpr ?_]
    intro p hp hany
    obtain ⟨k, hk, hsub⟩ := List.any_eq_true.mp hany
    exact hnone p hp k hk ((subB_iff _ _).mp hsub)
  · rintro i p hip ⟨kw, hkw, hinf⟩ hlt
    have hfind : CATEGORIES.find? (fun q => q.2.any (fun k => subB k.data text.data))
        = some p := by
      refine find?_first_idx _ _ i p hip ?_ ?_
      · exact List.any_eq_true.mpr ⟨kw, hkw, (subB_iff _ _).mpr hinf⟩
      · intro j hj q hq
        cases hA : q.2.any (fun k => subB k.data text.data) with
        | false => rfl
        | true =>
          obtain ⟨k, hk, hs⟩ := List.any_eq_true.mp hA
          exact absurd ((subB_iff _ _).mp hs) (hlt j hj q hq k hk)
    unfold _categorize_invoice
    rw [hfind]

/-- Witness for C7: a text containing only the Água keyword `sabesp` is
classified as Água through the theorem's first-match clause. -/
theorem c7_witness : _categorize_invoice "sabesp" = "Água" := by
  refine (c7_category_first_match.2 "sabesp").2 2 _ rfl ⟨"sabesp", by decide, by decide⟩ ?_
  intro j hj q hq kw hkw hinf
  have hs : subB kw.data "sabesp".data = true := (subB_iff _ _).mpr hinf
  interval_cases j <;>
    simp only [CATEGORIES, List.getElem?_cons_zero, List.getElem?_cons_succ,
      Option.some.injEq] at hq <;>
    subst hq <;> fin_cases hkw <;> exact absurd hs (by decide)

/-- Witness for C8 at a concrete environment where both pipelines raise. -/
theorem c8_witness :
    (extract_text_from_pdf ⟨Except.error "mupdf", Except.error "tesseract"⟩).2 = true ∧
    (extract_text_from_pdf ⟨Except.error "mupdf", Except.error "tesseract"⟩).1 = "" := by
  have h := c8_fails_closed ⟨Except.error "mupdf", Except.error "tesseract"⟩
  exact ⟨h.1 "mupdf" rfl, h.2 "tesseract" rfl (h.1 "mupdf" rfl)⟩

/-- `digitChar` reduces modulo 10. -/
theorem digitChar_mod (n : Nat) : digitChar n = digitChar (n % 10) := by
  simp [digitChar, Nat.mod_mod_of_dvd n (dvd_refl 10)]

/-- The characters produced by `digitChar` are ASCII digits, in particular
neither `,` nor `.`. -/
theorem digitChar_props (n : Nat) :
    (digitChar n).isDigit = true ∧ digitChar n ≠ ',' ∧ digitChar n ≠ '.' := by
  rw [digitChar_mod]
  exact (by decide :
      ∀ k, k < 10 → (digitChar k).isDigit = true ∧ digitChar k ≠ ',' ∧ digitChar k ≠ '.')
    (n % 10) (Nat.mod_lt n (by norm_num))

/-- All characters of `natDigitsAux` come from `digitChar`. -/
theorem natDigitsAux_shape (fuel : Nat) :
    ∀ n, ∀ c ∈ natDigitsAux fuel n, ∃ k, c = digitChar k := by
  induction fuel with
  | zero => intro n c hc; simp [natDigitsAux] at hc
  | succ f ih =>
    intro n c hc
    unfold natDigitsAux at hc
    by_cases h : n < 10
    · rw [if_pos h] at hc
      simp at hc
      exact ⟨n, hc⟩
    · rw [if_neg h] at hc
      rcases List.mem_append.mp hc with h1 | h2
      · exact ih (n / 10) c h1
      · simp at h2
        exact ⟨n % 10, h2⟩

/-- All characters of `natDigits` come from `digitChar`. -/
theorem natDigits_shape (n : Nat) : ∀ c ∈ natDigits n, ∃ k, c = digitChar k :=
  natDigitsAux_shape _ _

/-- All characters of `fracDigitsAux` come from `digitChar`. -/
theorem fracDigitsAux_shape (fuel : Nat) :
    ∀ r p : Nat, ∀ c ∈ fracDigitsAux fuel r p, ∃ k, c = digitChar k := by
  induction fuel with
  | zero => intro r p c hc; simp [fracDigitsAux] at hc
  | succ f ih =>
    intro r p c hc
    unfold fracDigitsAux at hc
    by_cases h : r = 0
    · rw [if_pos h] at hc
      simp at hc
    · rw [if_neg h] at hc
      rcases List.mem_cons.mp hc with h1 | h2
      · exact ⟨_, h1⟩
      · exact ih _ _ c h2

/-- The numeral `overflowBound` is the double-overflow midpoint
`2 ^ 1024 - 2 ^ 970`. -/
theorem overflowBound_eq : overflowBound = 2 ^ 1024 - 2 ^ 970 := by
  norm_num [overflowBound]

/-- Character classification of `pyStrFloat`'s output on finite values. -/
theorem pyStrFloat_chars (q : Dec) :
    ∀ c ∈ (pyStrFloat (.fin q)).data, c = '-' ∨ c = '.' ∨ ∃ k, c = digitChar k := by
  intro c hc
  simp only [pyStrFloat] at hc
  rcases List.mem_append.mp hc with h1 | h2
  · rcases List.mem_append.mp h1 with ha | hb
    · split at ha
      · simp at ha
        exact Or.inl ha
      · simp at ha
    · exact Or.inr (Or.inr (natDigits_shape _ _ hb))
  · rcases List.mem_cons.mp h2 with h5 | h6
    · exact Or.inr (Or.inl h5)
    · split at h6
      · simp at h6
        exact Or.inr (Or.inr ⟨0, by rw [h6]; decide⟩)
      · exact Or.inr (Or.inr (fracDigitsAux_shape _ _ _ _ h6))

/-- `pyStrFloat` never prints a comma (the infinities print as `"inf"` /
`"-inf"`). -/
theorem pyStrFloat_no_comma (v : PyFloat) : ',' ∉ (pyStrFloat v).data := by
  cases v with
  | inf => decide
  | ninf => decide
  | fin q =>
    intro h
    rcases pyStrFloat_chars q ',' h with h1 | h1 | ⟨k, hk⟩
    · exact absurd h1 (by decide)
    · exact absurd h1 (by decide)
    · exact (digitChar_props k).2.1 hk.symm

/-- Character classification of `formatFixed2`'s output on finite
values. -/
theorem formatFixed2_chars (q : Dec) :
    ∀ c ∈ (formatFixed2 (.fin q)).data, c = '-' ∨ c = '.' ∨ ∃ k, c = digitChar k := by
  intro c hc
  simp only [formatFixed2, pad2] at hc
  rcases List.mem_append.mp hc with h1 | h2
  · rcases List.mem_append.mp h1 with ha | hb
    · split at ha
      · simp at ha
        exact Or.inl ha
      · simp at ha
    · exact Or.inr (Or.inr (natDigits_shape _ _ hb))
  · rcases List.mem_cons.mp h2 with h5 | h6
    · exact Or.inr (Or.inl h5)
    · simp at h6
      rcases h6 with h7 | h7 <;> exact Or.inr (Or.inr ⟨_, h7⟩)

/-- `formatFixed2` never prints a comma (the infinities print as `"inf"` /
`"-inf"`). -/
theorem formatFixed2_no_comma (v : PyFloat) : ',' ∉ (formatFixed2 v).data := by
  cases v with
  | inf => decide
  | ninf => decide
  | fin q =>
    intro h
    rcases formatFixed2_chars q ',' h with h1 | h1 | ⟨k, hk⟩
    · exact absurd h1 (by decide)
    · exact absurd h1 (by decide)
    · exact (digitChar_props k).2.1 hk.symm

/-- A string of the shape `pre.DD` (no other dot) satisfies `twoFracB`. -/
theorem twoFracB_of_shape (pre : List Char) (d1 d2 : Char)
    (h1 : d1.isDigit = true) (h2 : d2.isDigit = true)
    (hpre : ∀ c ∈ pre, c ≠ '.') :
    twoFracB (String.mk (pre ++ '.' :: [d1, d2])) = true := by
  have hrev : (String.mk (pre ++ '.' :: [d1, d2])).data.reverse
      = d2 :: d1 :: '.' :: pre.reverse := by simp
  unfold twoFracB
  rw [hrev]
  simp only [h1, h2, beq_self_eq_true, Bool.and_true, Bool.true_and, List.all_eq_true]
  intro c hc
  simpa using hpre c (List.mem_reverse.mp hc)

/-- On finite values `formatFixed2` prints exactly two fraction digits
after its (only) dot. -/
theorem formatFixed2_twoFrac (q : Dec) : twoFracB (formatFixed2 (.fin q)) = true := by
  have h := twoFracB_of_shape
    ((if Int.fdiv (2 * q.num * 100 + ((10 ^ q.exp : Nat) : Int)) (2 * ((10 ^ q.exp : Nat) : Int)) < 0
        then ['-'] else []) ++
      natDigits ((Int.fdiv (2 * q.num * 100 + ((10 ^ q.exp : Nat) : Int))
        (2 * ((10 ^ q.exp : Nat) : Int))).natAbs / 100))
    (digitChar ((Int.fdiv (2 * q.num * 100 + ((10 ^ q.exp : Nat) : Int))
        (2 * ((10 ^ q.exp : Nat) : Int))).natAbs % 100 / 10 % 10))
    (digitChar ((Int.fdiv (2 * q.num * 100 + ((10 ^ q.exp : Nat) : Int))
        (2 * ((10 ^ q.exp : Nat) : Int))).natAbs % 100 % 10))
    (digitChar_props _).1 (digitChar_props _).1 ?_
  · simpa [formatFixed2, pad2, List.append_assoc] using h
  · intro c hc
    rcases List.mem_append.mp hc with h1 | h2
    · split at h1
      · simp at h1
        rw [h1]
        decide
      · simp at h1
    · obtain ⟨k, hk⟩ := natDigits_shape _ c h2
      rw [hk]
      exact (digitChar_props k).2.2

/-- The fold used by `maxListP` stays within the candidates. -/
theorem foldl_maxP_mem (xs : List PyFloat) (x : PyFloat) :
    xs.foldl (fun cur q => if pfltB cur q then q else cur) x ∈ x :: xs := by
  induction xs generalizing x with
  | nil => simp [List.foldl]
  | cons y ys ih =>
    have hstep : (y :: ys).foldl (fun cur q => if pfltB cur q then q else cur) x
        = ys.foldl (fun cur q => if pfltB cur q then q else cur)
            (if pfltB x y then y else x) := rfl
    rcases List.mem_cons.mp (ih (if pfltB x y then y else x)) with h1 | h1
    · by_cases hxy : pfltB x y = true
      · rw [hstep, h1, if_pos hxy]
        exact List.mem_cons_of_mem _ (List.mem_cons_self y ys)
      · rw [hstep, h1, if_neg hxy]
        exact List.mem_cons_self x _
    · rw [hstep]
      exact List.mem_cons_of_mem _ (List.mem_cons_of_mem _ h1)

/-- `maxListP` of a nonempty list is one of its elements. -/
theorem maxListP_mem (l : List PyFloat) (h : l ≠ []) : maxListP l ∈ l := by
  cases l with
  | nil => exact absurd rfl h
  | cons x xs => exact foldl_maxP_mem xs x

/-- `maxListP` of a list whose `isEmpty` test failed is one of its
elements. -/
theorem maxListP_mem_of_not_empty (l : List PyFloat) (h : ¬(l.isEmpty = true)) :
    maxListP l ∈ l :=
  maxListP_mem l (fun hh => h (by rw [hh]; rfl))

/-- `str.strip()` only removes characters. -/
theorem pyStrip_subset (l : List Char) : ∀ c ∈ pyStrip l, c ∈ l := by
  intro c hc
  unfold pyStrip at hc
  rw [List.mem_reverse] at hc
  have h1 : c ∈ (l.dropWhile pyIsSpace).reverse :=
    (List.dropWhile_sublist _).subset hc
  rw [List.mem_reverse] at h1
  exact (List.dropWhile_sublist _).subset h1

/-- `str.replace('r$', '')` only removes characters. -/
theorem removeRS_subset : ∀ (l : List Char), ∀ c ∈ removeRS l, c ∈ l
  | [] => by intro c hc; simp [removeRS] at hc
  | [a] => by intro c hc; simpa [removeRS] using hc
  | a :: b :: t => by
    intro c hc
    rw [show removeRS (a :: b :: t)
        = if a = 'r' ∧ b = '$' then removeRS t else a :: removeRS (b :: t) from rfl] at hc
    by_cases hab : a = 'r' ∧ b = '$'
    · rw [if_pos hab] at hc
      exact List.mem_cons_of_mem _ (List.mem_cons_of_mem _ (removeRS_subset t c hc))
    · rw [if_neg hab] at hc
      rcases List.mem_cons.mp hc with h1 | h2
      · exact h1 ▸ List.mem_cons_self a (b :: t)
      · exact List.mem_cons_of_mem _ (removeRS_subset (b :: t) c h2)

/-- `Char` order agrees with the code-point order. -/
theorem charLe_toNat (a b : Char) : (a ≤ b) ↔ a.toNat ≤ b.toNat :=
  ⟨fun h => h, fun h => h⟩

/-- `[\d.,]` characters lie below code point 58, so in particular below
the ASCII capitals and distinct from `-`, `+`, `r`. -/
theorem isNumChar_toNat (c : Char) (h : isNumChar c = true) : c.toNat < 58 := by
  unfold isNumChar at h
  simp only [Bool.or_eq_true, decide_eq_true_eq] at h
  rcases h with (hd | hc) | hc
  · simp only [Char.isDigit, Bool.and_eq_true, decide_eq_true_eq] at hd
    have := (charLe_toNat c '9').mp hd.2
    rw [show ('9').toNat = 57 from rfl] at this
    omega
  · rw [hc]; decide
  · rw [hc]; decide

/-- ASCII lowercasing fixes every `[\d.,]` character. -/
theorem pyLower_numChar (c : Char) (h : isNumChar c = true) : pyLowerChar c = c := by
  unfold pyLowerChar
  rw [if_neg]
  rintro ⟨h1, _⟩
  have h2 := (charLe_toNat 'A' c).mp h1
  rw [show ('A').toNat = 65 from rfl] at h2
  have h3 := isNumChar_toNat c h
  omega

/-- Cleaning a candidate made of `[\d.,]` characters can never produce a
minus sign. -/
theorem cleanedChars_no_dash (g : List Char) (hg : ∀ c ∈ g, isNumChar c = true) :
    '-' ∉ cleanedChars g := by
  intro hmem
  unfold cleanedChars at hmem
  rcases List.mem_map.mp hmem with ⟨c, hc, hce⟩
  have hcd : c = '-' := by
    by_cases hcomma : c = ','
    · rw [if_pos hcomma] at hce
      exact absurd hce (by decide)
    · rwa [if_neg hcomma] at hce
  subst hcd
  have h1 : '-' ∈ pyStrip (removeRS (g.map pyLowerChar)) := (List.mem_filter.mp hc).1
  have h2 : '-' ∈ removeRS (g.map pyLowerChar) := pyStrip_subset _ '-' h1
  have h3 : '-' ∈ g.map pyLowerChar := removeRS_subset _ '-' h2
  rcases List.mem_map.mp h3 with ⟨c0, hc0, hml⟩
  rw [pyLower_numChar c0 (hg c0 hc0)] at hml
  have h4 := hg c0 hc0
  rw [hml] at h4
  exact absurd h4 (by decide)

/-- On minus-free input the `float()` grammar finds no negative sign. -/
theorem pySign_fst_false (cs : List Char) (h : '-' ∉ cs) : (pySign cs).1 = false := by
  cases cs with
  | nil => rfl
  | cons c t =>
    show (if c = '-' then ((true, t) : Bool × List Char)
        else if c = '+' then (false, t) else (false, c :: t)).1 = false
    rw [if_neg (fun hcd => h (by rw [← hcd]; exact List.mem_cons_self c t))]
    by_cases hp : c = '+'
    · rw [if_pos hp]
    · rw [if_neg hp]

/-- `mkPyFloat` of a nonnegative decimal is never `-inf`. -/
theorem mkPyFloat_ne_ninf (d : Dec) (h : 0 ≤ d.num) : mkPyFloat d ≠ .ninf := by
  unfold mkPyFloat
  split
  · rw [if_neg (Int.not_lt.mpr h)]
    exact fun hh => PyFloat.noConfusion hh
  · exact fun hh => PyFloat.noConfusion hh

/-- The exponent suffix preserves the sign of the mantissa. -/
theorem expPart_nonneg (v : Dec) (cs : List Char) (d : Dec)
    (hv : 0 ≤ v.num) (h : expPart v cs = some d) : 0 ≤ d.num := by
  unfold expPart at h
  dsimp only at h
  cases hp : pdp (pySign cs).2 with
  | none => rw [hp] at h; exact absurd h (by simp)
  | some tr =>
    obtain ⟨e, n, rest⟩ := tr
    rw [hp] at h
    dsimp only at h
    split at h
    · have h2 := Option.some.inj h
      split at h2
      · rw [← h2]
        exact hv
      · rw [← h2]
        exact mul_nonneg hv (Int.natCast_nonneg _)
    · exact absurd h (by simp)

/-- On minus-free input, `float()` never returns `-inf`. -/
theorem pyFloatParse_ne_ninf (cs : List Char) (hdash : '-' ∉ cs) (v : PyFloat)
    (h : pyFloatParse cs = some v) : v ≠ .ninf := by
  unfold pyFloatParse at h
  dsimp only at h
  have hps : (pySign (pyStrip cs)).1 = false :=
    pySign_fst_false _ (fun hm => hdash (pyStrip_subset cs '-' hm))
  cases hpm : parseMantissa (pySign (pyStrip cs)).2 with
  | none => rw [hpm] at h; exact absurd h (by simp)
  | some tr =>
    obtain ⟨num, scale, rest⟩ := tr
    rw [hpm] at h
    dsimp only at h
    rw [hps, if_neg (by decide : ¬ (false = true))] at h
    cases rest with
    | nil =>
      dsimp only at h
      rw [← Option.some.inj h]
      exact mkPyFloat_ne_ninf _ (Int.natCast_nonneg num)
    | cons c t =>
      dsimp only at h
      split at h
      · rcases Option.map_eq_some'.mp h with ⟨d, hd, hvd⟩
        rw [← hvd]
        exact mkPyFloat_ne_ninf d (expPart_nonneg _ t d (Int.natCast_nonneg num) hd)
      · exact absurd h (by simp)

/-- Cleaned `[\d.,]` candidates never parse to `-inf`. -/
theorem clean_numChar_ne_ninf (g : List Char) (hg : ∀ c ∈ g, isNumChar c = true) :
    _clean_value_str_to_float (String.mk g) ≠ .ninf := by
  unfold _clean_value_str_to_float
  cases hp : pyFloatParse (cleanedChars (String.mk g).data) with
  | none => exact fun hh => PyFloat.noConfusion hh
  | some v => exact pyFloatParse_ne_ninf _ (cleanedChars_no_dash g hg) v hp

/-- A strategy-2 capture consists of `[\d.,]` characters. -/
theorem moneyMatchAt_numChars (cs g rest : List Char)
    (h : moneyMatchAt cs = some (g, rest)) : ∀ c ∈ g, isNumChar c = true := by
  rcases cs with _ | ⟨c1, _ | ⟨c2, r⟩⟩
  · exact absurd h (by simp [moneyMatchAt])
  · exact absurd h (by simp [moneyMatchAt])
  · simp only [moneyMatchAt] at h
    split at h
    · split at h
      · have h2 := Option.some.inj h
        have hg : (r.dropWhile pyIsSpace).takeWhile isNumChar = g :=
          congrArg Prod.fst h2
        intro c hc
        rw [← hg] at hc
        exact List.mem_takeWhile_imp hc
      · exact absurd h (by simp)
    · exact absurd h (by simp)

/-- One step of the strategy-2 scan. -/
theorem s2FindAllAux_succ (fuel : Nat) (cs : List Char) :
    s2FindAllAux (fuel + 1) cs =
      (match moneyMatchAt cs with
       | some (g, rest) => g :: s2FindAllAux fuel rest
       | none =>
         match cs with
         | [] => []
         | _ :: t => s2FindAllAux fuel t) := rfl

/-- Every capture of the strategy-2 scan consists of `[\d.,]`
characters. -/
theorem s2FindAllAux_numChars (fuel : Nat) :
    ∀ cs g, g ∈ s2FindAllAux fuel cs → ∀ c ∈ g, isNumChar c = true := by
  induction fuel with
  | zero => intro cs g hg; simp [s2FindAllAux] at hg
  | succ f ih =>
    intro cs g hg
    rw [s2FindAllAux_succ] at hg
    cases hm : moneyMatchAt cs with
    | some pr =>
      obtain ⟨g0, r0⟩ := pr
      rw [hm] at hg
      dsimp only at hg
      rcases List.mem_cons.mp hg with h1 | h2
      · subst h1
        exact moneyMatchAt_numChars cs g r0 hm
      · exact ih r0 g h2
    | none =>
      rw [hm] at hg
      dsimp only at hg
      cases cs with
      | nil => simp at hg
      | cons c t => exact ih t g hg

/-- Every capture of `re.findall(r'r\$\s*([\d.,]{2,})', ·)` consists of
`[\d.,]` characters. -/
theorem s2FindAll_numChars (cs : List Char) :
    ∀ g ∈ s2FindAll cs, ∀ c ∈ g, isNumChar c = true :=
  fun g hg => s2FindAllAux_numChars cs.length cs g hg

/-- If the priority-1 money pattern matches at some position, `re.search`
finds a (leftmost) match. -/
theorem s1Search_isSome_of_matchAt (cs : List Char) (n : Nat)
    (h : (s1MatchAt (cs.drop n)).isSome = true) :
    (s1Search cs).isSome = true := by
  induction cs generalizing n with
  | nil =>
    rw [List.drop_nil] at h
    exact absurd h (by decide)
  | cons c t ih =>
    cases hm : s1MatchAt (c :: t) with
    | some g =>
      unfold s1Search
      rw [hm]
      rfl
    | none =>
      unfold s1Search
      rw [hm]
      cases n with
      | zero =>
        rw [List.drop_zero, hm] at h
        exact absurd h (by decide)
      | succ k => exact ih k (by simpa using h)

/-- When strategy 1 fails, every value `_extract_total_value` returns was
serialized by `formatFixed2` from a value that is not `-inf` (strategy-2
candidates are `[\d.,]` captures, so they never parse negative; the
strategy-3 filter requires `0 < v`). -/
theorem totalValue_fixed2_shape (nlp : Option (String → List (String × String)))
    (text r : String) (hs1 : s1Search text.data = none)
    (h : _extract_total_value nlp text = some r) :
    ∃ v : PyFloat, v ≠ .ninf ∧ r = formatFixed2 v := by
  unfold _extract_total_value at h
  rw [hs1] at h
  by_cases hms : (s2FindAll text.data).isEmpty
  · rw [if_pos hms] at h
    cases nlp with
    | none => exact Option.noConfusion h
    | some ents =>
      dsimp only at h
      split at h
      · exact Option.noConfusion h
      · split at h
        · exact Option.noConfusion h
        · rename_i hvalid
          refine ⟨_, ?_, (Option.some.inj h).symm⟩
          have hmem := maxListP_mem_of_not_empty _ hvalid
          have hp := (List.mem_filter.mp hmem).2
          simp only [Bool.and_eq_true] at hp
          intro hh
          rw [hh] at hp
          exact absurd hp.1 (by decide)
  · rw [if_neg hms] at h
    cases hsf : s2FindAll text.data with
    | nil => exact absurd (by rw [hsf]; rfl) hms
    | cons a l =>
      rw [hsf] at h
      refine ⟨_, ?_, (Option.some.inj h).symm⟩
      have hmem := maxListP_mem
        ((a :: l).map (fun g => _clean_value_str_to_float (String.mk g)))
        (by simp)
      rcases List.mem_map.mp hmem with ⟨g, hgmem, hgeq⟩
      intro hh
      exact clean_numChar_ne_ninf g
        (s2FindAll_numChars text.data g (by rw [hsf]; exact hgmem))
        (hgeq.trans hh)

/-- C2 (amended): every value returned by the monetary-total extractor is
free of commas; when the result does not come from the first
(keyword-anchored) strategy it is either the two-fraction-digit dotted
formatting of a finite maximum or the overflow string `"inf"` (float
overflow on a huge candidate, see the counterexample).  The first strategy
serializes with Python `str()`, which can print a different number of
fractional digits — and likewise `"inf"` on overflow. -/
theorem c2_amended (nlp : Option (String → List (String × String)))
    (text r : String) (h : _extract_total_value nlp text = some r) :
    ',' ∉ r.data ∧
    (s1Search text.data = none → (twoFracB r = true ∨ r = "inf")) := by
  cases hs : s1Search text.data with
  | some g =>
    have hr : r = pyStrFloat (_clean_value_str_to_float (String.mk g)) := by
      unfold _extract_total_value at h
      rw [hs] at h
      exact (Option.some.inj h).symm
    subst hr
    exact ⟨pyStrFloat_no_comma _, fun hn => absurd hn (by simp)⟩
  | none =>
    obtain ⟨v, hvn, hv⟩ := totalValue_fixed2_shape nlp text r hs h
    subst hv
    refine ⟨formatFixed2_no_comma v, fun _ => ?_⟩
    cases v with
    | fin q => exact Or.inl (formatFixed2_twoFrac q)
    | inf => exact Or.inr rfl
    | ninf => exact absurd rfl hvn

set_option maxRecDepth 8000 in
/-- Counterexample to C2 as stated: on `"total a pagar r$ 50,00"` the
first strategy returns Python `str(50.0) = "50.0"`, which has one
fractional digit, not two; and on `"r$ "` followed by four hundred nines
the second strategy overflows `float()` to infinity and returns `"inf"`,
which has no fractional digits and no dot at all. -/
theorem c2_counterexample :
    _extract_total_value none "total a pagar r$ 50,00" = some "50.0" ∧
    twoFracB "50.0" = false ∧
    _extract_total_value none
      (String.mk ('r' :: '$' :: ' ' :: List.replicate 400 '9')) = some "inf" ∧
    twoFracB "inf" = false := by
  refine ⟨by decide, by decide, by decide, by decide⟩

/-- Witness for C2 (amended) at a concrete strategy-2 extraction. -/
theorem c2_witness :
    ',' ∉ ("120.00" : String).data ∧
    (s1Search ("r$ 50,00 r$ 120,00" : String).data = none →
      (twoFracB "120.00" = true ∨ "120.00" = "inf")) :=
  c2_amended none "r$ 50,00 r$ 120,00" "120.00" (by decide)

/-- C3 (amended): an unparseable candidate string yields `0.0` under the
shared cleaning rule, but the second strategy does **not** exclude such
zeros: whenever any currency-marked candidate exists it returns the
two-decimal formatting of the maximum over all parsed candidates, zeros
included (so all-unparseable candidates produce `"0.00"`).  Only the third
strategy excludes zero, through its `0 < v < 1 000 000` filter. -/
theorem c3_amended :
    (∀ s : String, pyFloatParse (cleanedChars s.data) = none →
      _clean_value_str_to_float s = .fin ⟨0, 0⟩) ∧
    (∀ (nlp : Option (String → List (String × String))) (text : String),
      s1Search text.data = none → s2FindAll text.data ≠ [] →
      _extract_total_value nlp text =
        some (formatFixed2 (maxListP ((s2FindAll text.data).map
          (fun g => _clean_value_str_to_float (String.mk g)))))) ∧
    (∀ (ents : String → List (String × String)) (text r : String),
      s1Search text.data = none → s2FindAll text.data = [] →
      _extract_total_value (some ents) text = some r →
      ∃ v : PyFloat, pfltB (.fin ⟨0, 0⟩) v = true ∧
        pfltB v (.fin ⟨1000000, 0⟩) = true ∧
        r = formatFixed2 v) := by
  refine ⟨?_, ?_, ?_⟩
  · intro s hnone
    unfold _clean_value_str_to_float
    rw [hnone]
    rfl
  · intro nlp text hs1 hne
    unfold _extract_total_value
    rw [hs1, if_neg (by simpa [List.isEmpty_iff] using hne)]
  · intro ents text r hs1 hempty h
    unfold _extract_total_value at h
    rw [hs1, if_pos (by simp [hempty])] at h
    dsimp only at h
    split at h
    · exact Option.noConfusion h
    · split at h
      · exact Option.noConfusion h
      · rename_i hvalid
        have hmem := maxListP_mem_of_not_empty _ hvalid
        have hp := (List.mem_filter.mp hmem).2
        simp only [Bool.and_eq_true] at hp
        exact ⟨_, hp.1, hp.2, (Option.some.inj h).symm⟩

/-- Counterexample to C3 as stated: on `"r$ .,"` the only currency-marked
candidate `.,` is unparseable (cleaning to `"."`), yet the second strategy
returns `"0.00"` instead of falling through. -/
theorem c3_counterexample :
    pyFloatParse (cleanedChars (String.data ".,")) = none ∧
    _clean_value_str_to_float ".," = .fin ⟨0, 0⟩ ∧
    s2FindAll (String.data "r$ .,") = [['.', ',']] ∧
    _extract_total_value none "r$ .," = some "0.00" := by
  refine ⟨by decide, by decide, by decide, by decide⟩

/-- Witness for C3 (amended) at a concrete strategy-2 extraction. -/
theorem c3_witness :
    _extract_total_value none "r$ 10,00" =
      some (formatFixed2 (maxListP ((s2FindAll (String.data "r$ 10,00")).map
        (fun g => _clean_value_str_to_float (String.mk g))))) :=
  c3_amended.2.1 none "r$ 10,00" (by decide) (by decide)

/-- C4 (amended): in the first strategy's pattern only the letter `r` of
the currency marker is optional — the `$` is required.  For every text in
which the keyword phrase is followed by optional whitespace, an optional
`r`, a `$`, optional whitespace and a numeric token, the first strategy
matches, parses the leftmost match's numeric token with the shared
cleaning rule, and the extractor returns its Python `str()` value. -/
theorem c4_amended (nlp : Option (String → List (String × String)))
    (text : String) (h : ∃ n, (s1MatchAt (text.data.drop n)).isSome = true) :
    ∃ g, s1Search text.data = some g ∧
      _extract_total_value nlp text =
        some (pyStrFloat (_clean_value_str_to_float (String.mk g))) := by
  obtain ⟨n, hn⟩ := h
  obtain ⟨g, hg⟩ := Option.isSome_iff_exists.mp (s1Search_isSome_of_matchAt text.data n hn)
  refine ⟨g, hg, ?_⟩
  unfold _extract_total_value
  rw [hg]

/-- Counterexample to C4 as stated: `"valor total 123,45"` has the keyword
phrase followed by a numeric token with no currency marker (which the
claim calls optional), yet the first strategy — and the whole extractor —
returns nothing, because `r?\$` requires the `$`. -/
theorem c4_counterexample :
    specS1Found (String.data "valor total 123,45") = true ∧
    s1Search (String.data "valor total 123,45") = none ∧
    _extract_total_value none "valor total 123,45" = none := by
  refine ⟨by decide, by decide, by decide⟩

/-- Witness for C4 (amended) at the spec's own example input. -/
theorem c4_witness :
    ∃ g, s1Search (String.data "valor total r$ 1.234,56") = some g ∧
      _extract_total_value none "valor total r$ 1.234,56" =
        some (pyStrFloat (_clean_value_str_to_float (String.mk g))) :=
  c4_amended none "valor total r$ 1.234,56" ⟨0, by decide⟩

/-- `dleB` unfolded to the lexicographic order. -/
theorem dleB_iff (a b : PyDate) : dleB a b = true ↔
    (a.y < b.y ∨ (a.y = b.y ∧ (a.m < b.m ∨ (a.m = b.m ∧ a.d ≤ b.d)))) := by
  unfold dleB
  split_ifs with h1 h2 <;> simp only [decide_eq_true_eq] <;> omega

/-- `dltB` unfolded to the strict lexicographic order. -/
theorem dltB_iff (a b : PyDate) : dltB a b = true ↔
    (a.y < b.y ∨ (a.y = b.y ∧ (a.m < b.m ∨ (a.m = b.m ∧ a.d < b.d)))) := by
  unfold dltB
  split_ifs with h1 h2 <;> simp only [decide_eq_true_eq] <;> omega

/-- `dleB` is reflexive. -/
theorem dleB_refl (a : PyDate) : dleB a a = true := by
  rw [dleB_iff]
  omega

/-- A strictly smaller date is smaller-or-equal. -/
theorem dltB_imp_dleB (a b : PyDate) (h : dltB a b = true) : dleB a b = true := by
  rw [dltB_iff] at h
  rw [dleB_iff]
  omega

/-- Totality: a failed strict comparison gives the reverse comparison. -/
theorem dltB_false_dleB (a b : PyDate) (h : dltB a b = false) : dleB b a = true := by
  have h2 : ¬(a.y < b.y ∨ (a.y = b.y ∧ (a.m < b.m ∨ (a.m = b.m ∧ a.d < b.d)))) := by
    rw [← dltB_iff]
    simp [h]
  rw [dleB_iff]
  omega

/-- `dleB` is transitive. -/
theorem dleB_trans (a b c : PyDate) (h1 : dleB a b = true) (h2 : dleB b c = true) :
    dleB a c = true := by
  rw [dleB_iff] at *
  omega

/-- `minByDate` is `none` exactly on the empty list. -/
theorem minByDate_eq_none_iff (l : List (PyDate × List Char)) :
    minByDate l = none ↔ l = [] := by
  cases l <;> simp [minByDate]

/-- The fold used by `minByDate` stays within the candidates. -/
theorem foldl_minD_mem (xs : List (PyDate × List Char)) (x : PyDate × List Char) :
    xs.foldl (fun cur q => if dltB q.1 cur.1 then q else cur) x ∈ x :: xs := by
  induction xs generalizing x with
  | nil => simp [List.foldl]
  | cons y ys ih =>
    have hstep : (y :: ys).foldl (fun cur q => if dltB q.1 cur.1 then q else cur) x
        = ys.foldl (fun cur q => if dltB q.1 cur.1 then q else cur)
            (if dltB y.1 x.1 then y else x) := rfl
    rcases List.mem_cons.mp (ih (if dltB y.1 x.1 then y else x)) with h1 | h1
    · by_cases hxy : dltB y.1 x.1 = true
      · rw [hstep, h1, if_pos hxy]
        exact List.mem_cons_of_mem _ (List.mem_cons_self y ys)
      · rw [hstep, h1, if_neg hxy]
        exact List.mem_cons_self x _
    · rw [hstep]
      exact List.mem_cons_of_mem _ (List.mem_cons_of_mem _ h1)

/-- The fold used by `minByDate` computes a minimum (first on ties). -/
theorem foldl_minD_le (xs : List (PyDate × List Char)) (x : PyDate × List Char) :
    ∀ q ∈ x :: xs,
      dleB (xs.foldl (fun cur q2 => if dltB q2.1 cur.1 then q2 else cur) x).1 q.1
        = true := by
  induction xs generalizing x with
  | nil =>
    intro q hq
    rcases List.mem_cons.mp hq with h | h
    · subst h
      exact dleB_refl _
    · simp at h
  | cons y ys ih =>
    intro q hq
    have hstep : (y :: ys).foldl (fun cur q2 => if dltB q2.1 cur.1 then q2 else cur) x
        = ys.foldl (fun cur q2 => if dltB q2.1 cur.1 then q2 else cur)
            (if dltB y.1 x.1 then y else x) := rfl
    rw [hstep]
    have hhead := ih (if dltB y.1 x.1 then y else x) _
      (List.mem_cons_self (if dltB y.1 x.1 then y else x) ys)
    rcases List.mem_cons.mp hq with h | h
    · subst h
      by_cases hxy : dltB y.1 q.1 = true
      · rw [if_pos hxy] at *
        exact dleB_trans _ _ _ hhead (dltB_imp_dleB _ _ hxy)
      · rw [if_neg hxy] at *
        exact hhead
    · rcases List.mem_cons.mp h with h2 | h2
      · subst h2
        by_cases hxy : dltB q.1 x.1 = true
        · rw [if_pos hxy] at *
          exact hhead
        · rw [if_neg hxy] at *
          exact dleB_trans _ _ _ hhead (dltB_false_dleB _ _ (by simpa using hxy))
      · exact ih _ q (List.mem_cons_of_mem _ h2)

/-- `minByDate` returns a member whose date is minimal. -/
theorem minByDate_min (l : List (PyDate × List Char)) (p : PyDate × List Char)
    (h : minByDate l = some p) : p ∈ l ∧ ∀ q ∈ l, dleB p.1 q.1 = true := by
  cases l with
  | nil => exact Option.noConfusion h
  | cons x xs =>
    have hp := Option.some.inj h
    constructor
    · rw [← hp]
      exact foldl_minD_mem xs x
    · intro q hq
      rw [← hp]
      exact foldl_minD_le xs x q hq

/-- Every survivor of strategy 3 is a found token that parses to a date on
or after today. -/
theorem dueSurvivors_spec (today : PyDate) (cs : List Char) :
    ∀ p ∈ dueSurvivors today cs,
      p.2 ∈ dateFindAll cs ∧ parseDateToken p.2 = some p.1 ∧
        dleB today p.1 = true := by
  intro p hp
  unfold dueSurvivors at hp
  obtain ⟨tok, htok, hf⟩ := List.mem_filterMap.mp hp
  cases hpt : parseDateToken tok with
  | none =>
    rw [hpt] at hf
    exact Option.noConfusion hf
  | some dt =>
    rw [hpt] at hf
    dsimp only at hf
    by_cases hle : dleB today dt = true
    · rw [if_pos hle] at hf
      have := Option.some.inj hf
      subst this
      exact ⟨htok, hpt, hle⟩
    · rw [if_neg hle] at hf
      exact Option.noConfusion hf

/-- C5: When the due-date extractor's first two strategies fail, the third
strategy extracts every `DD/MM/YY(YY)` token found by the date regex,
parses each (two-digit years prefixed with `"20"`), discards unparseable
tokens, keeps only dates on or after today (midnight-truncated), and
returns the original string form of the chronologically closest surviving
date; if no date survives it returns nothing. -/
theorem c5_nearest_future_fallback (today : PyDate) (text : String)
    (h1 : dd1Search text.data = none) (h2 : dueStrat2 text.data = none) :
    (_extract_due_date today text = none ↔ dueSurvivors today text.data = []) ∧
    (∀ s, _extract_due_date today text = some s →
      ∃ dt, (dt, s.data) ∈ dueSurvivors today text.data ∧
        ∀ q ∈ dueSurvivors today text.data, dleB dt q.1 = true) ∧
    (∀ p ∈ dueSurvivors today text.data,
      p.2 ∈ dateFindAll text.data ∧ parseDateToken p.2 = some p.1 ∧
        dleB today p.1 = true) := by
  have hred : _extract_due_date today text
      = ((minByDate (dueSurvivors today text.data)).map Prod.snd).map String.mk := by
    unfold _extract_due_date
    rw [h1, h2]
    rfl
  refine ⟨?_, ?_, dueSurvivors_spec today text.data⟩
  · rw [hred]
    simp only [Option.map_eq_none']
    exact minByDate_eq_none_iff _
  · intro s hs
    rw [hred] at hs
    simp only [Option.map_eq_some'] at hs
    obtain ⟨t, ⟨p, hp, ht⟩, hmk⟩ := hs
    obtain ⟨hmem, hmin⟩ := minByDate_min _ _ hp
    refine ⟨p.1, ?_, hmin⟩
    have hdata : s.data = p.2 := by
      rw [← hmk, ← ht]
    rw [hdata]
    simpa using hmem

/-- Witness for C5 at the spec's own fallback example: with today in 2025,
text `"01/01/2020 20/12/2099"` and no keyword, a date is returned (the
2099 one survives, the 2020 one is past). -/
theorem c5_witness :
    _extract_due_date ⟨2025, 10, 12⟩ "01/01/2020 20/12/2099" ≠ none :=
  fun h => absurd
    ((c5_nearest_future_fallback ⟨2025, 10, 12⟩ "01/01/2020 20/12/2099"
      (by decide) (by decide)).1.mp h)
    (by decide)

/-- Splitting on a character absent from the text yields one piece. -/
theorem splitOnChar_single (sep : Char) (cs : List Char) (h : sep ∉ cs) :
    splitOnChar sep cs = [cs] := by
  induction cs with
  | nil => rfl
  | cons c t ih =>
    unfold splitOnChar
    rw [if_neg (fun hc => h (by rw [← hc]; exact List.mem_cons_self c t)),
      ih (fun hm => h (List.mem_cons_of_mem c hm))]

/-- `List.findSome?` on a one-element list. -/
theorem findSome?_singleton {α β : Type} (f : α → Option β) (a : α) :
    List.findSome? f [a] = f a := by
  cases h : f a <;> simp [List.findSome?_cons, h]

/-- Words produced by `splitWSAux` are nonempty, whitespace-free, and drawn
from the input or the accumulator. -/
theorem splitWSAux_words (cs : List Char) :
    ∀ acc, (∀ c ∈ acc, pyIsSpace c = false) →
      ∀ w ∈ splitWSAux cs acc,
        w ≠ [] ∧ ∀ c ∈ w, pyIsSpace c = false ∧ (c ∈ cs ∨ c ∈ acc) := by
  induction cs with
  | nil =>
    intro acc hacc w hw
    unfold splitWSAux at hw
    split at hw
    · simp at hw
    · rename_i hne
      simp at hw
      subst hw
      refine ⟨by simpa using hne, ?_⟩
      intro c hc
      exact ⟨hacc c (List.mem_reverse.mp hc), Or.inr (List.mem_reverse.mp hc)⟩
  | cons a t ih =>
    intro acc hacc w hw
    unfold splitWSAux at hw
    by_cases ha : pyIsSpace a = true
    · rw [if_pos ha] at hw
      have tail : w ∈ splitWSAux t [] →
          w ≠ [] ∧ ∀ c ∈ w, pyIsSpace c = false ∧ (c ∈ a :: t ∨ c ∈ acc) := by
        intro hw2
        obtain ⟨hne, hin⟩ := ih [] (by simp) w hw2
        refine ⟨hne, fun c hc => ⟨(hin c hc).1, ?_⟩⟩
        rcases (hin c hc).2 with h | h
        · exact Or.inl (List.mem_cons_of_mem a h)
        · simp at h
      split at hw
      · exact tail hw
      · rcases List.mem_cons.mp hw with h1 | h2
        · rename_i hne
          subst h1
          refine ⟨by simpa using hne, ?_⟩
          intro c hc
          exact ⟨hacc c (List.mem_reverse.mp hc), Or.inr (List.mem_reverse.mp hc)⟩
        · exact tail h2
    · rw [if_neg ha] at hw
      have hacc2 : ∀ c ∈ a :: acc, pyIsSpace c = false := by
        intro c hc
        rcases List.mem_cons.mp hc with h | h
        · subst h
          simpa using ha
        · exact hacc c h
      obtain ⟨hne, hin⟩ := ih (a :: acc) hacc2 w hw
      refine ⟨hne, fun c hc => ?_⟩
      obtain ⟨hsp, hmem⟩ := hin c hc
      refine ⟨hsp, ?_⟩
      rcases hmem with h | h
      · exact Or.inl (List.mem_cons_of_mem a h)
      · rcases List.mem_cons.mp h with h2 | h2
        · exact Or.inl (by rw [h2]; exact List.mem_cons_self a t)
        · exact Or.inr h2

/-- Words produced by `splitWS` are nonempty, whitespace-free, and drawn
from the input. -/
theorem splitWS_words (cs : List Char) :
    ∀ w ∈ splitWS cs, w ≠ [] ∧ ∀ c ∈ w, pyIsSpace c = false ∧ c ∈ cs := by
  intro w hw
  obtain ⟨hne, hin⟩ := splitWSAux_words cs [] (by simp) w hw
  refine ⟨hne, fun c hc => ⟨(hin c hc).1, ?_⟩⟩
  rcases (hin c hc).2 with h | h
  · exact h
  · simp at h

/-- Every character of `joinSp ws` is the joining space or a word
character. -/
theorem joinSp_chars (ws : List (List Char)) :
    ∀ c ∈ joinSp ws, c = ' ' ∨ ∃ w ∈ ws, c ∈ w := by
  induction ws with
  | nil => simp [joinSp]
  | cons w ws ih =>
    cases ws with
    | nil =>
      intro c hc
      exact Or.inr ⟨w, List.mem_cons_self _ _, hc⟩
    | cons w2 ws2 =>
      intro c hc
      have hc2 : c ∈ w ++ ' ' :: joinSp (w2 :: ws2) := hc
      rcases List.mem_append.mp hc2 with h1 | h2
      · exact Or.inr ⟨w, List.mem_cons_self _ _, h1⟩
      · rcases List.mem_cons.mp h2 with h3 | h4
        · exact Or.inl h3
        · rcases ih c h4 with h5 | ⟨w3, hw3, hc3⟩
          · exact Or.inl h5
          · exact Or.inr ⟨w3, List.mem_cons_of_mem _ hw3, hc3⟩

/-- The normalizer's output never contains a newline (all whitespace is
collapsed to single spaces). -/
theorem normalize_no_newline (s : String) : '\n' ∉ (normalize_text s).data := by
  unfold normalize_text
  split
  · simp
  · intro hmem
    rcases joinSp_chars _ '\n' hmem with h1 | ⟨w, hw, hc⟩
    · exact absurd h1 (by decide)
    · exact absurd ((splitWS_words _ w hw).2 '\n' hc).1 (by decide)

/-- C10: On newline-free text — the only form `normalize_text` can produce
— if the due-date extractor's first strategy fails, the text contains a
due-date keyword anywhere, and the text contains a date token anywhere,
then the second (same-line) strategy returns the first date token of the
entire text, regardless of its distance from the keyword. -/
theorem c10_single_line_strategy2 :
    (∀ s : String, '\n' ∉ (normalize_text s).data) ∧
    (∀ (today : PyDate) (text : String), '\n' ∉ text.data →
      dd1Search text.data = none →
      dueKeywords.any (fun k => subB k text.data) = true →
      (dateSearch text.data).isSome = true →
      dueStrat2 text.data = dateSearch text.data ∧
      _extract_due_date today text = (dateSearch text.data).map String.mk) := by
  refine ⟨normalize_no_newline, ?_⟩
  intro today text hnl h1 hkw hds
  have hstrat2 : dueStrat2 text.data = dateSearch text.data := by
    unfold dueStrat2
    rw [splitOnChar_single _ _ hnl, findSome?_singleton, if_pos hkw]
  obtain ⟨tok, htok⟩ := Option.isSome_iff_exists.mp hds
  refine ⟨hstrat2, ?_⟩
  unfold _extract_due_date
  rw [h1, hstrat2, htok]
  rfl

/-- Witness for C10: `"vencimento 01/02/34"` defeats strategy 1 (two-digit
year) but strategy 2 returns the date via the single-line scan. -/
theorem c10_witness :
    _extract_due_date ⟨2025, 1, 1⟩ "vencimento 01/02/34" = some "01/02/34" := by
  have h := (c10_single_line_strategy2.2 ⟨2025, 1, 1⟩ "vencimento 01/02/34"
    (by decide) (by decide) (by decide) (by decide)).2
  rw [h]
  decide

/-- `litM` decides "the input starts with this literal". -/
theorem litM_iff (w : List Char) : ∀ cs r : List Char,
    litM w cs = some r ↔ cs = w ++ r := by
  induction w with
  | nil => intro cs r; simp [litM]
  | cons a as ih =>
    intro cs r
    cases cs with
    | nil => simp [litM]
    | cons b bs =>
      by_cases hab : a = b
      · subst hab
        simp only [litM, if_pos rfl, List.cons_append, List.cons.injEq, true_and]
        exact ih bs r
      · constructor
        · intro h
          rw [show litM (a :: as) (b :: bs) = none from by simp [litM, hab]] at h
          exact Option.noConfusion h
        · intro h
          exact absurd (List.cons.inj h).1 (fun hh => hab hh.symm)

/-- `wSeqF` (with enough fuel) decides the declarative tail semantics. -/
theorem wSeqF_iff (fuel : Nat) : ∀ (ws : List (List Char)) (lastC : Option Char)
    (cs : List Char), cs.length + ws.length + 1 ≤ fuel →
    (wSeqF fuel ws lastC cs = true ↔ TailProp ws lastC cs) := by
  induction fuel with
  | zero =>
    intro ws lastC cs hle
    omega
  | succ f ih =>
    intro ws lastC cs hle
    cases ws with
    | nil => exact Iff.rfl
    | cons w ws2 =>
      simp only [List.length_cons] at hle
      constructor
      · intro h
        simp only [wSeqF, Bool.or_eq_true] at h
        rcases h with h | h
        · cases hlit : litM w cs with
          | none =>
            rw [hlit] at h
            simp at h
          | some rest =>
            rw [hlit] at h
            dsimp only at h
            have hcs := (litM_iff w cs rest).mp hlit
            have hlen : rest.length ≤ cs.length := by
              rw [hcs]
              simp
            refine ⟨[], rest, by simpa using hcs, by intro x hx; simp at hx, ?_⟩
            exact (ih ws2 w.getLast? rest (by omega)).mp h
        · cases cs with
          | nil => simp at h
          | cons ch t =>
            dsimp only at h
            rw [Bool.and_eq_true] at h
            obtain ⟨hnw, hrec⟩ := h
            simp only [List.length_cons] at hle
            obtain ⟨g, rest, heq, hgap, htail⟩ :=
              (ih (w :: ws2) lastC t (by simp; omega)).mp hrec
            refine ⟨ch :: g, rest, by rw [heq]; rfl, ?_, htail⟩
            intro x hx
            rcases List.mem_cons.mp hx with h2 | h2
            · rw [h2]
              simpa using hnw
            · exact hgap x h2
      · rintro ⟨g, rest, heq, hgap, htail⟩
        simp only [wSeqF, Bool.or_eq_true]
        cases g with
        | nil =>
          simp only [List.nil_append] at heq
          left
          rw [(litM_iff w cs rest).mpr heq]
          dsimp only
          have hlen : rest.length ≤ cs.length := by
            rw [heq]
            simp
          exact (ih ws2 w.getLast? rest (by omega)).mpr htail
        | cons ch g2 =>
          have heq2 : cs = ch :: (g2 ++ w ++ rest) := by
            rw [heq]
            rfl
          subst heq2
          right
          dsimp only
          rw [Bool.and_eq_true]
          refine ⟨by simpa using hgap ch (List.mem_cons_self _ _), ?_⟩
          simp only [List.length_cons, List.length_append] at hle
          refine (ih (w :: ws2) lastC _ (by simp [List.length_append]; omega)).mpr
            ⟨g2, rest, rfl, fun x hx => hgap x (List.mem_cons_of_mem _ hx), htail⟩

/-- `streetMatchAt` decides an anchored match of the street pattern. -/
theorem streetMatchAt_iff (ws : List (List Char)) (prev : Option Char)
    (cs : List Char) :
    streetMatchAt ws prev cs = true ↔
      ∃ w rest, ws = w :: rest ∧ boundaryB prev cs.head? = true ∧
        ∃ r, cs = w ++ r ∧ TailProp rest w.getLast? r := by
  cases ws with
  | nil => simp [streetMatchAt]
  | cons w rest =>
    simp only [streetMatchAt, Bool.and_eq_true]
    constructor
    · rintro ⟨hb, hm⟩
      cases hlit : litM w cs with
      | none =>
        rw [hlit] at hm
        simp at hm
      | some r =>
        rw [hlit] at hm
        dsimp only at hm
        exact ⟨w, rest, rfl, hb, r, (litM_iff _ _ _).mp hlit,
          (wSeqF_iff _ rest w.getLast? r (le_refl _)).mp hm⟩
    · rintro ⟨w2, rest2, hws, hb, r, heq, htail⟩
      obtain ⟨rfl, rfl⟩ : w = w2 ∧ rest = rest2 :=
        ⟨(List.cons.inj hws).1, (List.cons.inj hws).2⟩
      refine ⟨hb, ?_⟩
      rw [(litM_iff w cs r).mpr heq]
      dsimp only
      exact (wSeqF_iff _ rest w.getLast? r (le_refl _)).mpr htail

/-- `lastD` peeling one consumed character. -/
theorem lastD_cons (prev : Option Char) (ch : Char) (pre : List Char) :
    lastD prev (ch :: pre) = lastD (some ch) pre := by
  cases pre with
  | nil => rfl
  | cons x xs =>
    unfold lastD
    rw [show (ch :: x :: xs).getLast? = (x :: xs).getLast? from List.getLast?_cons_cons]
    cases h2 : (x :: xs).getLast? with
    | some y => rfl
    | none => simp at h2

/-- With no initial predecessor, `lastD` is `getLast?`. -/
theorem lastD_none (pre : List Char) : lastD none pre = pre.getLast? := by
  cases h : pre.getLast? <;> simp [lastD, h]

/-- The position scan decides "the pattern matches at some position". -/
theorem streetScan_iff (ws : List (List Char)) (cs : List Char)
    (prev : Option Char) :
    streetScan ws prev cs = true ↔
      ∃ pre tl, cs = pre ++ tl ∧ streetMatchAt ws (lastD prev pre) tl = true := by
  induction cs generalizing prev with
  | nil =>
    simp only [streetScan]
    constructor
    · intro h
      exact ⟨[], [], rfl, h⟩
    · rintro ⟨pre, tl, heq, hm⟩
      obtain ⟨rfl, rfl⟩ := List.append_eq_nil.mp heq.symm
      exact hm
  | cons ch t ih =>
    simp only [streetScan, Bool.or_eq_true]
    constructor
    · rintro (h | h)
      · exact ⟨[], ch :: t, rfl, h⟩
      · obtain ⟨pre2, tl, heq, hm⟩ := (ih (some ch)).mp h
        exact ⟨ch :: pre2, tl, by rw [heq]; rfl, by rwa [lastD_cons]⟩
    · rintro ⟨pre, tl, heq, hm⟩
      cases pre with
      | nil =>
        left
        simp only [List.nil_append] at heq
        rw [heq]
        exact hm
      | cons c2 pre2 =>
        right
        have h2 := List.cons.inj heq
        refine (ih (some ch)).mpr ⟨pre2, tl, h2.2, ?_⟩
        rw [lastD_cons] at hm
        rwa [← h2.1] at hm

/-- `streetSearch` decides the declarative street-match semantics. -/
theorem streetSearch_iff (ws : List (List Char)) (cs : List Char) :
    streetSearch ws cs = true ↔ StreetMatchProp ws cs := by
  unfold streetSearch
  rw [streetScan_iff]
  constructor
  · rintro ⟨pre, tl, heq, hm⟩
    obtain ⟨w, rest, hws, hb, r, htl, htail⟩ := (streetMatchAt_iff _ _ _).mp hm
    subst hws
    exact ⟨pre, tl, heq, by rwa [lastD_none] at hb, r, htl, htail⟩
  · intro hsp
    cases ws with
    | nil => exact hsp.elim
    | cons w rest =>
      obtain ⟨pre, tl, heq, hb, r, htl, htail⟩ := hsp
      exact ⟨pre, tl, heq, (streetMatchAt_iff _ _ _).mpr
        ⟨w, rest, rfl, by rwa [lastD_none], r, htl, htail⟩⟩

/-- C6: The address matcher decides in strict priority order: if the
supplied postal code stripped of non-digits is non-empty and occurs as a
contiguous substring of the extracted text stripped of non-digits, the
outcome is MatchedByPostalCode; otherwise, if the normalized supplied
address's portion before the first comma, split into words, matches in the
extracted text as those words in order separated only by non-word
characters (or nothing) and bounded on each side by a word boundary, the
outcome is MatchedByStreet; otherwise the outcome is NoMatch. -/
theorem c6_address_matcher (t a c : String) :
    (matchAddress t a c = MatchOutcome.MatchedByPostalCode ↔
      (onlyDigits c.data ≠ [] ∧ onlyDigits c.data <:+: onlyDigits t.data)) ∧
    (matchAddress t a c = MatchOutcome.MatchedByStreet ↔
      (¬(onlyDigits c.data ≠ [] ∧ onlyDigits c.data <:+: onlyDigits t.data) ∧
        (logradouroOf a ≠ [] ∧ StreetMatchProp (streetWords a) t.data))) ∧
    (matchAddress t a c = MatchOutcome.NoMatch ↔
      (¬(onlyDigits c.data ≠ [] ∧ onlyDigits c.data <:+: onlyDigits t.data) ∧
        ¬(logradouroOf a ≠ [] ∧ StreetMatchProp (streetWords a) t.data))) := by
  have hb1 : ((!(onlyDigits c.data).isEmpty &&
      subB (onlyDigits c.data) (onlyDigits t.data)) = true) ↔
      (onlyDigits c.data ≠ [] ∧ onlyDigits c.data <:+: onlyDigits t.data) := by
    rw [Bool.and_eq_true, subB_iff, Bool.not_eq_true', List.isEmpty_eq_false]
  have hb2 : ((!(logradouroOf a).isEmpty &&
      streetSearch (streetWords a) t.data) = true) ↔
      (logradouroOf a ≠ [] ∧ StreetMatchProp (streetWords a) t.data) := by
    rw [Bool.and_eq_true, streetSearch_iff, Bool.not_eq_true', List.isEmpty_eq_false]
  by_cases h1 : onlyDigits c.data ≠ [] ∧ onlyDigits c.data <:+: onlyDigits t.data
  · have hm : matchAddress t a c = MatchOutcome.MatchedByPostalCode := by
      simp only [matchAddress]
      rw [if_pos (hb1.mpr h1)]
    refine ⟨⟨fun _ => h1, fun _ => hm⟩, ⟨?_, ?_⟩, ⟨?_, ?_⟩⟩
    · intro hEq
      rw [hm] at hEq
      exact absurd hEq (by decide)
    · rintro ⟨hn, _⟩
      exact absurd h1 hn
    · intro hEq
      rw [hm] at hEq
      exact absurd hEq (by decide)
    · rintro ⟨hn, _⟩
      exact absurd h1 hn
  · by_cases h2 : logradouroOf a ≠ [] ∧ StreetMatchProp (streetWords a) t.data
    · have hm : matchAddress t a c = MatchOutcome.MatchedByStreet := by
        simp only [matchAddress]
        rw [if_neg (fun hh => h1 (hb1.mp hh)), if_pos (hb2.mpr h2)]
      refine ⟨⟨?_, ?_⟩, ⟨fun _ => ⟨h1, h2⟩, fun _ => hm⟩, ⟨?_, ?_⟩⟩
      · intro hEq
        rw [hm] at hEq
        exact absurd hEq (by decide)
      · intro hp1
        exact absurd hp1 h1
      · intro hEq
        rw [hm] at hEq
        exact absurd hEq (by decide)
      · rintro ⟨_, hn2⟩
        exact absurd h2 hn2
    · have hm : matchAddress t a c = MatchOutcome.NoMatch := by
        simp only [matchAddress]
        rw [if_neg (fun hh => h1 (hb1.mp hh)), if_neg (fun hh => h2 (hb2.mp hh))]
      refine ⟨⟨?_, ?_⟩, ⟨?_, ?_⟩, ⟨fun _ => ⟨h1, h2⟩, fun _ => hm⟩⟩
      · intro hEq
        rw [hm] at hEq
        exact absurd hEq (by decide)
      · intro hp1
        exact absurd hp1 h1
      · intro hEq
        rw [hm] at hEq
        exact absurd hEq (by decide)
      · rintro ⟨_, hp2⟩
        exact absurd hp2 h2

/-- Witness for C6 at the spec's own street example: whitespace and case
differences do not defeat the street match. -/
theorem c6_witness :
    matchAddress "rua das flores 123" "Rua   Das Flores, 123" ""
      = MatchOutcome.MatchedByStreet := by
  apply ((c6_address_matcher "rua das flores 123" "Rua   Das Flores, 123" "").2.1).mpr
  refine ⟨?_, ?_, ?_⟩
  · rintro ⟨hne, _⟩
    exact hne (by decide)
  · decide
  · exact (streetSearch_iff _ _).mp (by decide)

/-- Lowercasing an ASCII capital produces the expected code point. -/
theorem ofNat32_toNat : ∀ k, k < 91 → 65 ≤ k → (Char.ofNat (k + 32)).toNat = k + 32 := by
  decide

/-- The code point of `pyLowerChar`. -/
theorem pyLower_toNat (c : Char) :
    (pyLowerChar c).toNat =
      if 65 ≤ c.toNat ∧ c.toNat ≤ 90 then c.toNat + 32 else c.toNat := by
  unfold pyLowerChar
  by_cases h : 'A' ≤ c ∧ c ≤ 'Z'
  · have h2 : 65 ≤ c.toNat ∧ c.toNat ≤ 90 :=
      ⟨(charLe_toNat 'A' c).mp h.1, (charLe_toNat c 'Z').mp h.2⟩
    rw [if_pos h, if_pos h2]
    exact ofNat32_toNat c.toNat (by omega) h2.1
  · have h2 : ¬(65 ≤ c.toNat ∧ c.toNat ≤ 90) :=
      fun hh => h ⟨(charLe_toNat 'A' c).mpr hh.1, (charLe_toNat c 'Z').mpr hh.2⟩
    rw [if_neg h, if_neg h2]

/-- `pyLowerChar` is idempotent. -/
theorem pyLower_idem (c : Char) : pyLowerChar (pyLowerChar c) = pyLowerChar c := by
  by_cases h : 'A' ≤ c ∧ c ≤ 'Z'
  · have h2 : 65 ≤ c.toNat ∧ c.toNat ≤ 90 :=
      ⟨(charLe_toNat 'A' c).mp h.1, (charLe_toNat c 'Z').mp h.2⟩
    have hd : (pyLowerChar c).toNat = c.toNat + 32 := by
      rw [pyLower_toNat, if_pos h2]
    have hcond : ¬('A' ≤ pyLowerChar c ∧ pyLowerChar c ≤ 'Z') := by
      rintro ⟨_, hz⟩
      have hz2 := (charLe_toNat (pyLowerChar c) 'Z').mp hz
      rw [hd, show ('Z').toNat = 90 from rfl] at hz2
      omega
    show (if 'A' ≤ pyLowerChar c ∧ pyLowerChar c ≤ 'Z'
        then Char.ofNat ((pyLowerChar c).toNat + 32) else pyLowerChar c)
      = pyLowerChar c
    rw [if_neg hcond]
  · have hg : pyLowerChar c = c := by
      unfold pyLowerChar
      rw [if_neg h]
    rw [hg, hg]

/-- Every key of `nfdTable` lies at or above U+00C0. -/
theorem nfdTable_keys_big : ∀ p ∈ nfdTable, 0xC0 ≤ p.1.toNat := by decide

/-- Characters below U+00C0 decompose to themselves. -/
theorem nfdChar_small (d : Char) (h : d.toNat < 0xC0) : nfdChar d = [d] := by
  unfold nfdChar
  have hf : nfdTable.find? (fun p => p.1 == d) = none := by
    rw [List.find?_eq_none]
    intro p hp hbeq
    have hpd : p.1 = d := by simpa using hbeq
    have := nfdTable_keys_big p hp
    rw [hpd] at this
    omega
  rw [hf]

/-- Every decomposition output in `nfdTable` is either a combining mark or
a character whose lowercase form is fixed by the whole normalization
pipeline. -/
theorem nfdTable_vals_good :
    ∀ p ∈ nfdTable, ∀ c ∈ p.2, isMnChar c = true ∨
      (nfdChar (pyLowerChar c) = [pyLowerChar c] ∧
        isMnChar (pyLowerChar c) = false ∧
        pyLowerChar (pyLowerChar c) = pyLowerChar c) := by
  decide

/-- A non-mark character that decomposes to itself has a pipeline-fixed
lowercase form. -/
theorem lower_good (c : Char) (hnfd : nfdChar c = [c]) (hmn : isMnChar c = false) :
    nfdChar (pyLowerChar c) = [pyLowerChar c] ∧
      isMnChar (pyLowerChar c) = false ∧
      pyLowerChar (pyLowerChar c) = pyLowerChar c := by
  by_cases h : 65 ≤ c.toNat ∧ c.toNat ≤ 90
  · have hd : (pyLowerChar c).toNat = c.toNat + 32 := by
      rw [pyLower_toNat, if_pos h]
    refine ⟨nfdChar_small _ (by omega), ?_, pyLower_idem c⟩
    unfold isMnChar
    rw [hd]
    have hfalse : ¬(0x300 ≤ c.toNat + 32) := by omega
    simp [hfalse]
  · have hg : pyLowerChar c = c := by
      unfold pyLowerChar
      rw [if_neg (fun hh => h ⟨(charLe_toNat 'A' c).mp hh.1, (charLe_toNat c 'Z').mp hh.2⟩)]
    rw [hg]
    exact ⟨hnfd, hmn, by rw [hg]⟩

/-- Any non-mark member of any NFD decomposition has a pipeline-fixed
lowercase form. -/
theorem nfd_member_good (c0 c2 : Char) (hmem : c2 ∈ nfdChar c0)
    (hmn : isMnChar c2 = false) :
    nfdChar (pyLowerChar c2) = [pyLowerChar c2] ∧
      isMnChar (pyLowerChar c2) = false ∧
      pyLowerChar (pyLowerChar c2) = pyLowerChar c2 := by
  unfold nfdChar at hmem
  cases hfind : nfdTable.find? (fun p => p.1 == c0) with
  | some p =>
    rw [hfind] at hmem
    have hp := List.mem_of_find?_eq_some hfind
    rcases nfdTable_vals_good p hp c2 hmem with h | h
    · rw [h] at hmn
      exact Bool.noConfusion hmn
    · exact h
  | none =>
    rw [hfind] at hmem
    simp only [List.mem_singleton] at hmem
    subst hmem
    have hnfd : nfdChar c2 = [c2] := by
      unfold nfdChar
      rw [hfind]
    exact lower_good c2 hnfd hmn

/-- Every character of a normalized string is fixed by NFD, is not a
combining mark, and is fixed by lowercasing. -/
theorem normalize_chars_good (s : String) :
    ∀ c ∈ (normalize_text s).data,
      nfdChar c = [c] ∧ isMnChar c = false ∧ pyLowerChar c = c := by
  intro c hc
  unfold normalize_text at hc
  split at hc
  · simp at hc
  · rcases joinSp_chars _ c hc with h1 | ⟨w, hw, hcw⟩
    · subst h1
      exact ⟨by decide, by decide, by decide⟩
    · have hcin := ((splitWS_words _ w hw).2 c hcw).2
      obtain ⟨c2, hc2, rfl⟩ := List.mem_map.mp hcin
      have hfil := List.mem_filter.mp hc2
      obtain ⟨c0, hc0, hmem⟩ := List.mem_flatMap.mp hfil.1
      have hmn : isMnChar c2 = false := by simpa using hfil.2
      exact nfd_member_good c0 c2 hmem hmn

/-- `flatMap` over a pointwise-singleton function is the identity. -/
theorem flatMap_id_of (l : List Char) (h : ∀ c ∈ l, nfdChar c = [c]) :
    l.flatMap nfdChar = l := by
  induction l with
  | nil => rfl
  | cons a t ih =>
    rw [List.flatMap_cons, h a (List.mem_cons_self _ _),
      ih (fun c hc => h c (List.mem_cons_of_mem _ hc))]
    rfl

/-- `map` over a pointwise-fixed function is the identity. -/
theorem map_id_of (l : List Char) (f : Char → Char) (h : ∀ c ∈ l, f c = c) :
    l.map f = l := by
  induction l with
  | nil => rfl
  | cons a t ih =>
    rw [List.map_cons, h a (List.mem_cons_self _ _),
      ih (fun c hc => h c (List.mem_cons_of_mem _ hc))]

/-- Consuming a whitespace-free word moves it into the accumulator. -/
theorem splitWSAux_append_word (w : List Char) :
    ∀ (cs acc : List Char), (∀ c ∈ w, pyIsSpace c = false) →
      splitWSAux (w ++ cs) acc = splitWSAux cs (w.reverse ++ acc) := by
  induction w with
  | nil => intro cs acc _; simp
  | cons ch w2 ih =>
    intro cs acc hw
    have hch : pyIsSpace ch = false := hw ch (List.mem_cons_self _ _)
    have heq : splitWSAux ((ch :: w2) ++ cs) acc = splitWSAux (w2 ++ cs) (ch :: acc) := by
      show splitWSAux (ch :: (w2 ++ cs)) acc = _
      simp [splitWSAux, hch]
    rw [heq, ih cs (ch :: acc) (fun c hc => hw c (List.mem_cons_of_mem _ hc))]
    congr 1
    simp

/-- Splitting the space-joined form of nonempty whitespace-free words
recovers exactly those words. -/
theorem splitJoin (ws : List (List Char))
    (h : ∀ w ∈ ws, w ≠ [] ∧ ∀ c ∈ w, pyIsSpace c = false) :
    splitWS (joinSp ws) = ws := by
  induction ws with
  | nil => rfl
  | cons w ws2 ih =>
    obtain ⟨hne, hnospace⟩ := h w (List.mem_cons_self _ _)
    cases ws2 with
    | nil =>
      show splitWS w = [w]
      unfold splitWS
      rw [show (w : List Char) = w ++ [] from (List.append_nil w).symm,
        splitWSAux_append_word w [] [] hnospace]
      unfold splitWSAux
      rw [if_neg (by simp [hne])]
      simp
    | cons w2 ws3 =>
      show splitWS (w ++ ' ' :: joinSp (w2 :: ws3)) = w :: w2 :: ws3
      unfold splitWS
      rw [splitWSAux_append_word w _ [] hnospace]
      unfold splitWSAux
      rw [if_pos (by decide), if_neg (by simp [hne])]
      rw [show splitWSAux (joinSp (w2 :: ws3)) [] = splitWS (joinSp (w2 :: ws3)) from rfl,
        ih (fun w3 hw3 => h w3 (List.mem_cons_of_mem _ hw3))]
      simp

/-- C9: The text normalizer is idempotent: for every string `x`,
`normalize_text (normalize_text x) = normalize_text x`. -/
theorem c9_normalize_idempotent (s : String) :
    normalize_text (normalize_text s) = normalize_text s := by
  by_cases hs : s = ""
  · rw [hs]
    rfl
  · have hout : normalize_text s = String.mk (joinSp (splitWS
        (((s.data.flatMap nfdChar).filter (fun c => !isMnChar c)).map pyLowerChar))) := by
      unfold normalize_text
      rw [if_neg hs]
    by_cases hout0 : normalize_text s = ""
    · rw [hout0]
      rfl
    · have hgood := normalize_chars_good s
      have h1 : (normalize_text s).data.flatMap nfdChar = (normalize_text s).data :=
        flatMap_id_of _ (fun c hc => (hgood c hc).1)
      have h2 : (normalize_text s).data.filter (fun c => !isMnChar c)
          = (normalize_text s).data :=
        List.filter_eq_self.mpr (fun c hc => by simp [(hgood c hc).2.1])
      have h3 : (normalize_text s).data.map pyLowerChar = (normalize_text s).data :=
        map_id_of _ _ (fun c hc => (hgood c hc).2.2)
      have hws : ∀ w ∈ splitWS
          (((s.data.flatMap nfdChar).filter (fun c => !isMnChar c)).map pyLowerChar),
          w ≠ [] ∧ ∀ c ∈ w, pyIsSpace c = false :=
        fun w hw => ⟨(splitWS_words _ w hw).1,
          fun c hc => ((splitWS_words _ w hw).2 c hc).1⟩
      calc normalize_text (normalize_text s)
          = String.mk (joinSp (splitWS
              ((((normalize_text s).data.flatMap nfdChar).filter
                (fun c => !isMnChar c)).map pyLowerChar))) := by
            show (if normalize_text s = "" then ""
              else String.mk (joinSp (splitWS
                ((((normalize_text s).data.flatMap nfdChar).filter
                  (fun c => !isMnChar c)).map pyLowerChar)))) = _
            rw [if_neg hout0]
        _ = String.mk (joinSp (splitWS (normalize_text s).data)) := by
            rw [h1, h2, h3]
        _ = normalize_text s := by
            rw [hout]
            show String.mk (joinSp (splitWS (joinSp (splitWS
              (((s.data.flatMap nfdChar).filter (fun c => !isMnChar c)).map
                pyLowerChar))))) = _
            rw [splitJoin _ hws]

/-- Witness for C9 at a concrete accented, oddly spaced input. -/
theorem c9_witness :
    normalize_text (normalize_text "  Água   É  ") = normalize_text "  Água   É  " :=
  c9_normalize_idempotent "  Água   É  "

end QotaOcr
